import Mathlib

/-!
Verification of the 360° appraisal analytics dashboard.

The aggregation pipeline of the dashboard (filtering, manager summaries,
competency scores, score distribution, feedback-theme deduplication) and the
derived views recomputed by the report exporters are shallowly embedded below.
JavaScript numbers are modelled as exact rationals (`ℚ`); `Number.toFixed(n)`
followed by `parseFloat` is modelled as exact decimal rounding with ties
rounded towards positive infinity, which is the value ECMAScript specifies for
`toFixed` on exactly representable inputs.  JavaScript strings appearing in the
feedback-theme computation are modelled as `List Char`, with `trim` and
`toLowerCase` modelled on the ASCII fragment the data uses.  `Map`/`Set`
insertion-ordered collections are modelled as lists; a `Set` is modelled as a
membership list because only membership is observed.
-/

/-- Decimal rounding as performed by `parseFloat(x.toFixed(2))`:
round `q * 100` to the nearest integer, ties towards `+∞`. -/
def jsRound2 (q : ℚ) : ℚ := ((⌊q * 100 + 1 / 2⌋ : ℤ) : ℚ) / 100

/-- Decimal rounding as performed by `parseFloat(x.toFixed(1))`. -/
def jsRound1 (q : ℚ) : ℚ := ((⌊q * 10 + 1 / 2⌋ : ℤ) : ℚ) / 10

/-! ### JavaScript string model (ASCII fragment) -/

/-- Whitespace characters removed by `String.prototype.trim` (ASCII part). -/
def wsChar (c : Char) : Bool :=
  c = ' ' || c = '\t' || c = '\n' || c = '\r'

/-- Single-character lower-casing as performed by `toLowerCase` on ASCII. -/
def lowerChar (c : Char) : Char :=
  if 'A' ≤ c ∧ c ≤ 'Z' then Char.ofNat (c.toNat + 32) else c

/-- Model of `String.prototype.toLowerCase` on ASCII strings. -/
def jsToLower (s : List Char) : List Char := s.map lowerChar

/-- Drop leading whitespace. -/
def ltrim (s : List Char) : List Char := s.dropWhile wsChar

/-- Drop trailing whitespace. -/
def rtrim (s : List Char) : List Char := ((s.reverse).dropWhile wsChar).reverse

/-- Model of `String.prototype.trim`. -/
def jsTrim (s : List Char) : List Char := rtrim (ltrim s)

/-! ### Data model

`AppraisalResponse` mirrors the fields of the fetched row that the aggregation
pipeline reads; identifiers and timestamps are irrelevant to every modelled
computation and are omitted.  Nullable columns are `Option`s. -/

structure AppraisalResponse where
  manager_name : String
  relationship : Option String := none
  empowers_team_score : Option ℚ := none
  final_say_score : Option ℚ := none
  mentors_coaches_score : Option ℚ := none
  effective_direction_score : Option ℚ := none
  establishes_rapport_score : Option ℚ := none
  sets_clear_goals_score : Option ℚ := none
  open_to_ideas_score : Option ℚ := none
  sense_of_urgency_score : Option ℚ := none
  analyzes_change_score : Option ℚ := none
  confidence_integrity_score : Option ℚ := none
  patient_humble_score : Option ℚ := none
  flat_collaborative_score : Option ℚ := none
  approachable_score : Option ℚ := none
  stop_doing : Option (List Char) := none
  start_doing : Option (List Char) := none
  continue_doing : Option (List Char) := none
deriving DecidableEq

/-- Names of the thirteen competency-score columns. -/
inductive ScoreKey where
  | empowers_team
  | final_say
  | mentors_coaches
  | effective_direction
  | establishes_rapport
  | sets_clear_goals
  | open_to_ideas
  | sense_of_urgency
  | analyzes_change
  | confidence_integrity
  | patient_humble
  | flat_collaborative
  | approachable
deriving DecidableEq

/-- Dynamic field access `r[key]` for the score columns. -/
def getScore (r : AppraisalResponse) : ScoreKey → Option ℚ
  | .empowers_team => r.empowers_team_score
  | .final_say => r.final_say_score
  | .mentors_coaches => r.mentors_coaches_score
  | .effective_direction => r.effective_direction_score
  | .establishes_rapport => r.establishes_rapport_score
  | .sets_clear_goals => r.sets_clear_goals_score
  | .open_to_ideas => r.open_to_ideas_score
  | .sense_of_urgency => r.sense_of_urgency_score
  | .analyzes_change => r.analyzes_change_score
  | .confidence_integrity => r.confidence_integrity_score
  | .patient_humble => r.patient_humble_score
  | .flat_collaborative => r.flat_collaborative_score
  | .approachable => r.approachable_score

/-- All thirteen score keys, in the order of the `scoreKeys` array used by
`scoreDistribution` in the data hook. -/
def allScoreKeys : List ScoreKey :=
  [.empowers_team, .mentors_coaches, .effective_direction,
   .establishes_rapport, .sets_clear_goals, .open_to_ideas,
   .sense_of_urgency, .analyzes_change, .final_say,
   .confidence_integrity, .patient_humble, .flat_collaborative,
   .approachable]

/-! ### Filter evaluator (`filteredResponses` in the data hook) -/

structure FilterState where
  managers : List String
  relationships : List String
  scoreRange : ℚ × ℚ := (1, 4)
deriving DecidableEq

/-- JavaScript truthiness of the nullable `relationship` string:
`null` and the empty string are falsy. -/
def relTruthy (r : AppraisalResponse) : Bool :=
  match r.relationship with
  | none => false
  | some s => !(s.isEmpty)

/-- Predicate of the `responses.filter(...)` callback in `filteredResponses`,
with the two early `return false` branches. -/
def keepResponse (f : FilterState) (r : AppraisalResponse) : Bool :=
  if 0 < f.managers.length && !(f.managers.contains r.manager_name) then
    false
  else if 0 < f.relationships.length && relTruthy r &&
      !(f.relationships.contains (r.relationship.getD (""))) then
    false
  else
    true

/-- The `filteredResponses` memo of the data hook. -/
def filteredResponses (responses : List AppraisalResponse) (f : FilterState) :
    List AppraisalResponse :=
  responses.filter (keepResponse f)

/-! ### Manager summaries (`managerSummaries` in the data hook) -/

structure ManagerSummary where
  manager_name : String
  total_responses : ℕ
  avg_team_leadership : ℚ
  avg_results_orientation : ℚ
  avg_cultural_fit : ℚ
  overall_score : ℚ
  responses : List AppraisalResponse
deriving DecidableEq

/-- Keys of the Team Leadership bucket, in the pushed order. -/
def teamLeadershipKeys : List ScoreKey :=
  [.empowers_team, .mentors_coaches, .effective_direction,
   .establishes_rapport, .sets_clear_goals]

/-- Keys of the Results Orientation bucket, in the pushed order. -/
def resultsOrientationKeys : List ScoreKey :=
  [.open_to_ideas, .sense_of_urgency, .analyzes_change, .final_say]

/-- Keys of the Cultural Fit bucket, in the pushed order. -/
def culturalFitKeys : List ScoreKey :=
  [.confidence_integrity, .patient_humble, .flat_collaborative, .approachable]

/-- Collect the non-null scores of the given keys over a group of responses,
as done by the nested `forEach` loops that build the bucket arrays. -/
def bucketScores (keys : List ScoreKey) (group : List AppraisalResponse) :
    List ℚ :=
  group.flatMap (fun r => (keys.map (getScore r)).filterMap id)

/-- The local helper `avg`: `arr.length ? arr.reduce((a,b) => a+b, 0) / arr.length : 0`. -/
def listAvg (l : List ℚ) : ℚ :=
  if l.length = 0 then 0 else l.sum / l.length

/-- The body of the `managerGroups.forEach` callback: build one summary
from a manager name and that manager's group of responses. -/
def mkSummary (name : String) (group : List AppraisalResponse) :
    ManagerSummary :=
  let avgTeamLeadership := listAvg (bucketScores teamLeadershipKeys group)
  let avgResultsOrientation := listAvg (bucketScores resultsOrientationKeys group)
  let avgCulturalFit := listAvg (bucketScores culturalFitKeys group)
  let overallScore := listAvg
    (([avgTeamLeadership, avgResultsOrientation, avgCulturalFit]).filter
      (fun s => decide (0 < s)))
  { manager_name := name
    total_responses := group.length
    avg_team_leadership := jsRound2 avgTeamLeadership
    avg_results_orientation := jsRound2 avgResultsOrientation
    avg_cultural_fit := jsRound2 avgCulturalFit
    overall_score := jsRound2 overallScore
    responses := group }

/-- Distinct manager names in order of first occurrence: the key order of the
insertion-ordered `Map` built by `managerGroups`. -/
def managerKeys (rs : List AppraisalResponse) : List String :=
  rs.foldl (fun acc r =>
    if r.manager_name ∈ acc then acc else acc ++ [r.manager_name]) []

/-- Stable descending insertion by `overall_score`, modelling the stable
`Array.prototype.sort` with comparator `(a, b) => b.overall_score - a.overall_score`. -/
def insertDesc (x : ManagerSummary) : List ManagerSummary → List ManagerSummary
  | [] => [x]
  | y :: ys =>
    if x.overall_score ≤ y.overall_score then y :: insertDesc x ys
    else x :: y :: ys

/-- Stable sort, descending by `overall_score`. -/
def sortDesc (l : List ManagerSummary) : List ManagerSummary :=
  l.foldr insertDesc []

/-- The `managerSummaries` memo of the data hook. -/
def managerSummaries (rs : List AppraisalResponse) : List ManagerSummary :=
  sortDesc ((managerKeys rs).map (fun k =>
    mkSummary k (rs.filter (fun r => r.manager_name = k))))

/-! ### Competency scores (`competencyScores` in the data hook) -/

structure CompetencyScore where
  name : String
  score : ℚ
  maxScore : ℚ
  percentage : ℚ
deriving DecidableEq

/-- The fixed competency catalog of the data hook, in its declared order. -/
def engineCatalog : List (ScoreKey × String) :=
  [(.empowers_team, "Empowers Team"),
   (.mentors_coaches, "Mentors & Coaches"),
   (.effective_direction, "Effective Direction"),
   (.establishes_rapport, "Establishes Rapport"),
   (.sets_clear_goals, "Sets Clear Goals"),
   (.open_to_ideas, "Open to Ideas"),
   (.sense_of_urgency, "Sense of Urgency"),
   (.analyzes_change, "Analyzes Change"),
   (.final_say, "Final Say"),
   (.confidence_integrity, "Confidence & Integrity"),
   (.patient_humble, "Patient & Humble"),
   (.flat_collaborative, "Flat & Collaborative"),
   (.approachable, "Approachable")]

/-- The `competencyScores` memo of the data hook. -/
def competencyScores (rs : List AppraisalResponse) : List CompetencyScore :=
  engineCatalog.map (fun comp =>
    let scores := rs.filterMap (fun r => getScore r comp.1)
    let avg := if scores.length = 0 then 0 else scores.sum / scores.length
    let maxScore : ℚ := 5
    let percentage := avg / maxScore * 100
    { name := comp.2
      score := jsRound2 avg
      maxScore := maxScore
      percentage := jsRound1 percentage })

/-! ### Score distribution (`scoreDistribution` in the data hook)

The record keyed by `score.toString()` is modelled as an association list
keyed by the numeric score itself (`toString` is injective on the numbers that
occur); an absent key is appended on first increment, mirroring property
creation on the record. -/

def bumpKey : List (ℚ × ℕ) → ℚ → List (ℚ × ℕ)
  | [], s => [(s, 1)]
  | (k, c) :: rest, s =>
    if k = s then (k, c + 1) :: rest else (k, c) :: bumpKey rest s

/-- Process one score field of one response: count the value when it is
non-null and lies in the 1 to 5 range, silently ignore it otherwise. -/
def distKeyStep (r : AppraisalResponse) (d : List (ℚ × ℕ)) (k : ScoreKey) :
    List (ℚ × ℕ) :=
  match getScore r k with
  | some s => if 1 ≤ s ∧ s ≤ 5 then bumpKey d s else d
  | none => d

/-- Process the thirteen score fields of one response. -/
def distStep (d : List (ℚ × ℕ)) (r : AppraisalResponse) : List (ℚ × ℕ) :=
  allScoreKeys.foldl (distKeyStep r) d

/-- The `scoreDistribution` memo of the data hook. -/
def scoreDistribution (rs : List AppraisalResponse) : List (ℚ × ℕ) :=
  rs.foldl distStep [(1, 0), (2, 0), (3, 0), (4, 0), (5, 0)]

/-! ### Feedback themes (`feedbackThemes` in the data hook) -/

structure FeedbackThemes where
  stopDoing : List (List Char)
  startDoing : List (List Char)
  continueDoing : List (List Char)
deriving DecidableEq

/-- Process one nullable feedback field against the shared `seen` set,
returning the updated seen set and output list.  The field is truthiness
tested (null and the empty string are falsy) before being normalised by
`toLowerCase().trim()`; a kept entry is pushed as the trimmed original. -/
def pushField (seen : List (List Char)) (out : List (List Char)) :
    Option (List Char) → List (List Char) × List (List Char)
  | none => (seen, out)
  | some s =>
    if s = [] then (seen, out)
    else
      let normalized := jsTrim (jsToLower s)
      if normalized ∈ seen then (seen, out)
      else (normalized :: seen, out ++ [jsTrim s])

/-- Body of the `filteredResponses.forEach` loop of `feedbackThemes`:
process the three fields of one response, threading the shared seen set. -/
def ftStep (acc : List (List Char) × FeedbackThemes) (r : AppraisalResponse) :
    List (List Char) × FeedbackThemes :=
  let s1 := pushField acc.1 acc.2.stopDoing r.stop_doing
  let s2 := pushField s1.1 acc.2.startDoing r.start_doing
  let s3 := pushField s2.1 acc.2.continueDoing r.continue_doing
  (s3.1, ⟨s1.2, s2.2, s3.2⟩)

/-- The `feedbackThemes` memo of the data hook: one pass over the filtered
responses, fields processed in the order stop, start, continue, with one
`seen` set shared by all three output lists. -/
def feedbackThemes (rs : List AppraisalResponse) : FeedbackThemes :=
  (rs.foldl ftStep
    (([] : List (List Char)), (⟨[], [], []⟩ : FeedbackThemes))).2

/-! ### Report-exporter analytics helpers (ExportButton component) -/

structure ExportCompetency where
  name : String
  avg : ℚ
  min : ℚ
  max : ℚ
  count : ℕ
  percentage : ℚ
deriving DecidableEq

/-- The competency catalog hard-coded in the exporter's
`calculateCompetencyScores`, in its declared order. -/
def exportCatalog : List (ScoreKey × String) :=
  [(.mentors_coaches, "Mentors & Coaches"),
   (.effective_direction, "Effective Direction"),
   (.establishes_rapport, "Establishes Rapport"),
   (.sets_clear_goals, "Sets Clear Goals"),
   (.open_to_ideas, "Open to Ideas"),
   (.sense_of_urgency, "Sense of Urgency"),
   (.analyzes_change, "Analyzes Change"),
   (.confidence_integrity, "Confidence & Integrity"),
   (.patient_humble, "Patient & Humble"),
   (.flat_collaborative, "Flat & Collaborative"),
   (.approachable, "Approachable"),
   (.empowers_team, "Empowers Team"),
   (.final_say, "Final Say Balance")]

/-- The value `Math.min(...scores)` guarded by `scores.length > 0`, else 0. -/
def listMin : List ℚ → ℚ
  | [] => 0
  | h :: t => t.foldl (fun a b => if b < a then b else a) h

/-- The value `Math.max(...scores)` guarded by `scores.length > 0`, else 0. -/
def listMax : List ℚ → ℚ
  | [] => 0
  | h :: t => t.foldl (fun a b => if a < b then b else a) h

/-- The exporter's `calculateCompetencyScores` helper. -/
def calculateCompetencyScores (responses : List AppraisalResponse) :
    List ExportCompetency :=
  exportCatalog.map (fun c =>
    let scores := responses.filterMap (fun r => getScore r c.1)
    let avg := if 0 < scores.length then scores.sum / scores.length else 0
    { name := c.2
      avg := avg
      min := listMin scores
      max := listMax scores
      count := scores.length
      percentage := avg / 4 * 100 })

structure TierRange where
  label : String
  min : ℚ
  max : ℚ
deriving DecidableEq

/-- The fixed `ranges` array of the exporter's `getScoreDistribution`. -/
def tierRanges : List TierRange :=
  [⟨"Exceptional (3.5-4.0)", 3.5, 4.0⟩,
   ⟨"Strong (3.0-3.49)", 3.0, 3.49⟩,
   ⟨"Developing (2.5-2.99)", 2.5, 2.99⟩,
   ⟨"Needs Improvement (2.0-2.49)", 2.0, 2.49⟩,
   ⟨"Critical (<2.0)", 0, 1.99⟩]

/-- Membership test `m.overall_score >= range.min && m.overall_score <= range.max`. -/
def inTierRange (rg : TierRange) (m : ManagerSummary) : Bool :=
  decide (rg.min ≤ m.overall_score) && decide (m.overall_score ≤ rg.max)

/-- The exporter's `getScoreDistribution`: per tier range, its manager count
and the matching manager names (the presentational `join` is not modelled). -/
def getScoreDistribution (managers : List ManagerSummary) :
    List (TierRange × ℕ × List String) :=
  tierRanges.map (fun rg =>
    (rg, (managers.filter (inTierRange rg)).length,
      ((managers.filter (inTierRange rg)).map (fun m => m.manager_name))))

/-- The per-manager `Performance Tier` label of the Excel `Manager Rankings`
sheet (also used in the PDF complete-rankings table). -/
def exportTier (q : ℚ) : String :=
  if 3.5 ≤ q then "Exceptional"
  else if 3.0 ≤ q then "Strong"
  else if 2.5 ≤ q then "Developing"
  else "Needs Improvement"

/-! ### Definitions following the claims' words (for comparison with the code) -/

/-- Modelled from the claim of C4: the fixed-breakpoint tier rule
(with a Critical tier below 2.0). -/
def claimedTier (q : ℚ) : String :=
  if 3.5 ≤ q then "Exceptional"
  else if 3.0 ≤ q then "Strong"
  else if 2.5 ≤ q then "Developing"
  else if 2.0 ≤ q then "Needs Improvement"
  else "Critical"

/-- Display names of the five claimed tiers, in breakpoint order. -/
def tierNames : List String :=
  ["Exceptional", "Strong", "Developing", "Needs Improvement", "Critical"]

/-- Modelled from the claim of C2: keep a response iff
(managers empty OR manager in set) AND (relationships empty OR relationship in
set OR relationship absent and the relationship filter empty). -/
def claimKeep (f : FilterState) (r : AppraisalResponse) : Prop :=
  (f.managers = [] ∨ r.manager_name ∈ f.managers) ∧
  (f.relationships = [] ∨
    (∃ s ∈ f.relationships, r.relationship = some s) ∨
    (r.relationship = none ∧ f.relationships = []))

instance (f : FilterState) (r : AppraisalResponse) :
    Decidable (claimKeep f r) :=
  inferInstanceAs (Decidable ((f.managers = [] ∨ r.manager_name ∈ f.managers) ∧
    (f.relationships = [] ∨
      (∃ s ∈ f.relationships, r.relationship = some s) ∨
      (r.relationship = none ∧ f.relationships = []))))

/-- Corrected filtering rule: a response with an absent (or empty-string,
hence falsy) relationship passes the relationship filter regardless of the
selected relationship set. -/
def amendedKeep (f : FilterState) (r : AppraisalResponse) : Prop :=
  (f.managers = [] ∨ r.manager_name ∈ f.managers) ∧
  (f.relationships = [] ∨ r.relationship = none ∨ r.relationship = some "" ∨
    (∃ s ∈ f.relationships, r.relationship = some s))

instance (f : FilterState) (r : AppraisalResponse) :
    Decidable (amendedKeep f r) :=
  inferInstanceAs (Decidable ((f.managers = [] ∨ r.manager_name ∈ f.managers) ∧
    (f.relationships = [] ∨ r.relationship = none ∨ r.relationship = some "" ∨
      (∃ s ∈ f.relationships, r.relationship = some s))))

/-! ### Event view of the feedback-theme pass

The three nullable fields of each response, in the processed order
(stop, start, continue per response), restricted to truthy values.  The
deduplicating fold over responses is then a fold over this event list, which
the bridge lemmas below make precise. -/

inductive FTag where
  | stop
  | start
  | cont
deriving DecidableEq

/-- Field selected by a tag. -/
def fieldOf : FTag → AppraisalResponse → Option (List Char)
  | .stop, r => r.stop_doing
  | .start, r => r.start_doing
  | .cont, r => r.continue_doing

/-- The truthy events contributed by one field. -/
def fieldEvents (t : FTag) : Option (List Char) → List (FTag × List Char)
  | none => []
  | some s => if s = [] then [] else [(t, s)]

/-- The truthy events contributed by one response, in processed order. -/
def respEvents (r : AppraisalResponse) : List (FTag × List Char) :=
  fieldEvents .stop r.stop_doing ++ fieldEvents .start r.start_doing ++
    fieldEvents .cont r.continue_doing

/-- All truthy feedback events of a response list, in processed order. -/
def events (rs : List AppraisalResponse) : List (FTag × List Char) :=
  rs.flatMap respEvents

/-- Normalisation used for dedup comparison: `toLowerCase().trim()`. -/
def normOf (s : List Char) : List Char := jsTrim (jsToLower s)

/-- The entries kept by the global-dedup pass, tagged, given an initial seen
set: first occurrence of each normalised value wins and is kept trimmed. -/
def keptFrom (seen : List (List Char)) :
    List (FTag × List Char) → List (FTag × List Char)
  | [] => []
  | (t, s) :: es =>
    if normOf s ∈ seen then keptFrom seen es
    else (t, jsTrim s) :: keptFrom (normOf s :: seen) es

/-- The seen set after processing an event list. -/
def seenAfter (seen : List (List Char)) :
    List (FTag × List Char) → List (List Char)
  | [] => seen
  | (_, s) :: es =>
    seenAfter (if normOf s ∈ seen then seen else normOf s :: seen) es

/-- Entries of one tag, in order. -/
def proj (t : FTag) (l : List (FTag × List Char)) : List (List Char) :=
  (l.filter (fun e => e.1 = t)).map (fun e => e.2)

/-- Output list addressed by a tag. -/
def tagList : FTag → FeedbackThemes → List (List Char)
  | .stop, t => t.stopDoing
  | .start, t => t.startDoing
  | .cont, t => t.continueDoing

/-- Modelled from the claim of C9: responses built from the output of the
theme extraction, one single-field response per kept entry, stop entries
first, then start, then continue. -/
def rebuildResponses (t : FeedbackThemes) : List AppraisalResponse :=
  t.stopDoing.map (fun s => { manager_name := "", stop_doing := some s }) ++
    t.startDoing.map (fun s => { manager_name := "", start_doing := some s }) ++
    t.continueDoing.map (fun s => { manager_name := "", continue_doing := some s })

/-! ### Lemmas on the string model -/

theorem dropWhile_idem (p : α → Bool) (l : List α) :
    (l.dropWhile p).dropWhile p = l.dropWhile p := by
  induction l with
  | nil => rfl
  | cons a l ih =>
    by_cases h : p a
    · simp [List.dropWhile_cons, h, ih]
    · simp [List.dropWhile_cons, h]

theorem ltrim_idem (s : List Char) : ltrim (ltrim s) = ltrim s := by
  simp [ltrim, dropWhile_idem]

theorem rtrim_idem (s : List Char) : rtrim (rtrim s) = rtrim s := by
  simp [rtrim, dropWhile_idem]

theorem dropWhile_append_singleton (p : α → Bool) (l : List α) (a : α)
    (h : ¬ p a) : (l ++ [a]).dropWhile p = l.dropWhile p ++ [a] := by
  induction l with
  | nil => simp [List.dropWhile_cons, h]
  | cons b l ih =>
    by_cases hb : p b
    · simp [List.dropWhile_cons, hb, ih]
    · simp [List.dropWhile_cons, hb]

theorem rtrim_cons_of_head (c : Char) (t : List Char) (h : ¬ wsChar c) :
    rtrim (c :: t) = c :: rtrim t := by
  simp only [rtrim, List.reverse_cons]
  rw [dropWhile_append_singleton wsChar t.reverse c (by simpa using h)]
  simp

theorem ltrim_eq_self_of_head (c : Char) (t : List Char) (h : ¬ wsChar c) :
    ltrim (c :: t) = c :: t := by
  simp [ltrim, List.dropWhile_cons, h]

theorem jsTrim_idem (s : List Char) : jsTrim (jsTrim s) = jsTrim s := by
  unfold jsTrim
  cases hm : ltrim s with
  | nil => simp [ltrim, rtrim]
  | cons c t =>
    have hc : ¬ wsChar c := by
      have := List.head?_dropWhile_not wsChar s
      rw [show s.dropWhile wsChar = ltrim s from rfl, hm] at this
      simpa using this
    rw [rtrim_cons_of_head c t hc, ltrim_eq_self_of_head c (rtrim t) hc,
      ← rtrim_cons_of_head c t hc, rtrim_idem]

theorem char_ofNat_toNat (n : ℕ) (h : n < 55296) : (Char.ofNat n).toNat = n := by
  have hv : n.isValidChar := Or.inl h
  simp only [Char.ofNat, hv, dif_pos, Char.ofNatAux, Char.toNat]
  rfl

theorem char_toNat_inj {a b : Char} (h : a.toNat = b.toNat) : a = b := by
  apply Char.eq_of_val_eq
  apply UInt32.eq_of_toBitVec_eq
  exact BitVec.toNat_injective h

theorem wsChar_iff (c : Char) : wsChar c = true ↔
    (c.toNat = 32 ∨ c.toNat = 9 ∨ c.toNat = 10 ∨ c.toNat = 13) := by
  unfold wsChar
  simp only [Bool.or_eq_true, decide_eq_true_eq]
  constructor
  · rintro (((h | h) | h) | h) <;> subst h <;> simp [Char.toNat]
  · rintro (h | h | h | h)
    · exact Or.inl (Or.inl (Or.inl (char_toNat_inj h)))
    · exact Or.inl (Or.inl (Or.inr (char_toNat_inj h)))
    · exact Or.inl (Or.inr (char_toNat_inj h))
    · exact Or.inr (char_toNat_inj h)

theorem lowerChar_ws (c : Char) : wsChar (lowerChar c) = wsChar c := by
  unfold lowerChar
  split
  · rename_i h
    have hA : 65 ≤ c.toNat := Char.le_def.mp h.1
    have hZ : c.toNat ≤ 90 := Char.le_def.mp h.2
    have ht : (Char.ofNat (c.toNat + 32)).toNat = c.toNat + 32 :=
      char_ofNat_toNat _ (by omega)
    have h1 : wsChar (Char.ofNat (c.toNat + 32)) = false := by
      rw [← Bool.not_eq_true, wsChar_iff, ht]
      omega
    have h2 : wsChar c = false := by
      rw [← Bool.not_eq_true, wsChar_iff]
      omega
    rw [h1, h2]
  · rfl

theorem dropWhile_map (f : α → α) (p : α → Bool)
    (hp : ∀ a, p (f a) = p a) (l : List α) :
    (l.map f).dropWhile p = (l.dropWhile p).map f := by
  induction l with
  | nil => rfl
  | cons a l ih =>
    by_cases h : p a
    · simp [List.dropWhile_cons, h, hp, ih]
    · simp [List.dropWhile_cons, h, hp]

theorem jsToLower_ltrim (s : List Char) :
    jsToLower (ltrim s) = ltrim (jsToLower s) := by
  simp [jsToLower, ltrim, dropWhile_map lowerChar wsChar lowerChar_ws]

theorem jsToLower_rtrim (s : List Char) :
    jsToLower (rtrim s) = rtrim (jsToLower s) := by
  simp [jsToLower, rtrim, ← List.map_reverse,
    dropWhile_map lowerChar wsChar lowerChar_ws]

theorem jsToLower_jsTrim (s : List Char) :
    jsToLower (jsTrim s) = jsTrim (jsToLower s) := by
  simp [jsTrim, jsToLower_rtrim, jsToLower_ltrim]

/-- Normalising an already kept (hence trimmed) entry gives the same value as
normalising its source. -/
theorem normOf_jsTrim (s : List Char) : normOf (jsTrim s) = normOf s := by
  simp [normOf, ← jsToLower_jsTrim, jsTrim_idem]

/-! ### Lemmas on the deduplicating pass -/

theorem seenAfter_append (seen : List (List Char))
    (es1 es2 : List (FTag × List Char)) :
    seenAfter seen (es1 ++ es2) = seenAfter (seenAfter seen es1) es2 := by
  induction es1 generalizing seen with
  | nil => rfl
  | cons e es ih => cases e; simp [seenAfter, ih]

theorem keptFrom_append (seen : List (List Char))
    (es1 es2 : List (FTag × List Char)) :
    keptFrom seen (es1 ++ es2) =
      keptFrom seen es1 ++ keptFrom (seenAfter seen es1) es2 := by
  induction es1 generalizing seen with
  | nil => rfl
  | cons e es ih =>
    cases e with
    | mk t s =>
      by_cases h : normOf s ∈ seen
      · simp [keptFrom, seenAfter, h, ih]
      · simp [keptFrom, seenAfter, h, ih]

theorem mem_seenAfter {x : List Char} (seen : List (List Char))
    (es : List (FTag × List Char)) :
    x ∈ seenAfter seen es ↔ x ∈ seen ∨ ∃ e ∈ es, normOf e.2 = x := by
  induction es generalizing seen with
  | nil => simp [seenAfter]
  | cons e es ih =>
    cases e with
    | mk t s =>
      by_cases h : normOf s ∈ seen
      · rw [seenAfter, if_pos h, ih]
        constructor
        · rintro (hx | hx)
          · exact Or.inl hx
          · exact Or.inr (by
              obtain ⟨e, he, hn⟩ := hx
              exact ⟨e, List.mem_cons_of_mem _ he, hn⟩)
        · rintro (hx | ⟨e, he, hn⟩)
          · exact Or.inl hx
          · rcases List.mem_cons.mp he with h1 | h1
            · subst h1; exact Or.inl (hn ▸ h)
            · exact Or.inr ⟨e, h1, hn⟩
      · rw [seenAfter, if_neg h, ih]
        constructor
        · rintro (hx | hx)
          · rcases List.mem_cons.mp hx with h1 | h1
            · exact Or.inr ⟨(t, s), List.mem_cons_self _ _, h1.symm⟩
            · exact Or.inl h1
          · obtain ⟨e, he, hn⟩ := hx
            exact Or.inr ⟨e, List.mem_cons_of_mem _ he, hn⟩
        · rintro (hx | ⟨e, he, hn⟩)
          · exact Or.inl (List.mem_cons_of_mem _ hx)
          · rcases List.mem_cons.mp he with h1 | h1
            · subst h1
              subst hn
              exact Or.inl (List.mem_cons_self _ _)
            · exact Or.inr ⟨e, h1, hn⟩

theorem proj_append (t : FTag) (l1 l2 : List (FTag × List Char)) :
    proj t (l1 ++ l2) = proj t l1 ++ proj t l2 := by
  simp [proj]

theorem keptFrom_tag_of_fieldEvents (seen : List (List Char))
    (v : Option (List Char)) (t : FTag) :
    ∀ e ∈ keptFrom seen (fieldEvents t v), e.1 = t := by
  cases v with
  | none => intro e he; simp [fieldEvents, keptFrom] at he
  | some s =>
    by_cases hs : s = []
    · intro e he; simp [fieldEvents, hs, keptFrom] at he
    · intro e he
      by_cases hn : normOf s ∈ seen
      · simp [fieldEvents, hs, keptFrom, hn] at he
      · simp [fieldEvents, hs, keptFrom, hn] at he
        rw [he]

theorem proj_eq_nil_of_ne_tag {t : FTag} (l : List (FTag × List Char))
    (h : ∀ e ∈ l, e.1 ≠ t) : proj t l = [] := by
  unfold proj
  rw [List.filter_eq_nil_iff.mpr]
  · rfl
  · intro e he
    simpa using h e he

theorem proj_eq_map_of_tag {t : FTag} (l : List (FTag × List Char))
    (h : ∀ e ∈ l, e.1 = t) : proj t l = l.map (fun e => e.2) := by
  unfold proj
  rw [List.filter_eq_self.mpr]
  intro e he
  simpa using h e he

theorem pushField_eq (t : FTag) (seen out : List (List Char))
    (v : Option (List Char)) :
    pushField seen out v = (seenAfter seen (fieldEvents t v),
      out ++ (keptFrom seen (fieldEvents t v)).map (fun e => e.2)) := by
  cases v with
  | none => simp [pushField, fieldEvents, seenAfter, keptFrom]
  | some s =>
    by_cases hs : s = []
    · simp [pushField, fieldEvents, hs, seenAfter, keptFrom]
    · by_cases hn : normOf s ∈ seen
      · rw [show normOf s = jsTrim (jsToLower s) from rfl] at hn
        simp [pushField, fieldEvents, hs, seenAfter, keptFrom, normOf, hn]
      · rw [show normOf s = jsTrim (jsToLower s) from rfl] at hn
        simp [pushField, fieldEvents, hs, seenAfter, keptFrom, normOf, hn]

theorem ftStep_eq (seen : List (List Char)) (th : FeedbackThemes)
    (r : AppraisalResponse) :
    ftStep (seen, th) r = (seenAfter seen (respEvents r),
      ⟨th.stopDoing ++ proj .stop (keptFrom seen (respEvents r)),
       th.startDoing ++ proj .start (keptFrom seen (respEvents r)),
       th.continueDoing ++ proj .cont (keptFrom seen (respEvents r))⟩) := by
  have e1 := pushField_eq .stop seen th.stopDoing r.stop_doing
  have e2 := pushField_eq .start (seenAfter seen (fieldEvents .stop r.stop_doing))
    th.startDoing r.start_doing
  have e3 := pushField_eq .cont (seenAfter
    (seenAfter seen (fieldEvents .stop r.stop_doing))
    (fieldEvents .start r.start_doing)) th.continueDoing r.continue_doing
  unfold ftStep
  rw [e1]
  simp only
  rw [e2]
  simp only
  rw [e3]
  simp only [respEvents, keptFrom_append, seenAfter_append, proj_append]
  congr 1
  congr 1
  · rw [proj_eq_map_of_tag _ (keptFrom_tag_of_fieldEvents _ _ .stop),
      proj_eq_nil_of_ne_tag
        (t := .stop) _ (fun e he => by
          rw [keptFrom_tag_of_fieldEvents _ _ .start e he]
          simp),
      proj_eq_nil_of_ne_tag
        (t := .stop) _ (fun e he => by
          rw [keptFrom_tag_of_fieldEvents _ _ .cont e he]
          simp)]
    simp
  · rw [proj_eq_nil_of_ne_tag
        (t := .start) _ (fun e he => by
          rw [keptFrom_tag_of_fieldEvents _ _ .stop e he]
          simp),
      proj_eq_map_of_tag _ (keptFrom_tag_of_fieldEvents _ _ .start),
      proj_eq_nil_of_ne_tag
        (t := .start) _ (fun e he => by
          rw [keptFrom_tag_of_fieldEvents _ _ .cont e he]
          simp)]
    simp
  · rw [proj_eq_nil_of_ne_tag
        (t := .cont) _ (fun e he => by
          rw [keptFrom_tag_of_fieldEvents _ _ .stop e he]
          simp),
      proj_eq_nil_of_ne_tag
        (t := .cont) _ (fun e he => by
          rw [keptFrom_tag_of_fieldEvents _ _ .start e he]
          simp),
      proj_eq_map_of_tag _ (keptFrom_tag_of_fieldEvents _ _ .cont)]
    simp

theorem ft_loop (rs : List AppraisalResponse) (seen : List (List Char))
    (th : FeedbackThemes) :
    rs.foldl ftStep (seen, th) = (seenAfter seen (events rs),
      ⟨th.stopDoing ++ proj .stop (keptFrom seen (events rs)),
       th.startDoing ++ proj .start (keptFrom seen (events rs)),
       th.continueDoing ++ proj .cont (keptFrom seen (events rs))⟩) := by
  induction rs generalizing seen th with
  | nil => simp [events, seenAfter, keptFrom, proj]
  | cons r rs ih =>
    rw [List.foldl_cons, ftStep_eq, ih]
    have hev : events (r :: rs) = respEvents r ++ events rs := by
      simp [events]
    rw [hev, seenAfter_append, keptFrom_append, proj_append, proj_append,
      proj_append]
    simp [List.append_assoc]

/-- The three output lists of `feedbackThemes` are the per-tag projections of
the global first-occurrence dedup over the event list. -/
theorem feedbackThemes_eq (rs : List AppraisalResponse) :
    feedbackThemes rs =
      ⟨proj .stop (keptFrom [] (events rs)),
       proj .start (keptFrom [] (events rs)),
       proj .cont (keptFrom [] (events rs))⟩ := by
  unfold feedbackThemes
  rw [ft_loop]
  simp

theorem keptFrom_sources (seen : List (List Char))
    (es : List (FTag × List Char)) :
    ∀ e ∈ keptFrom seen es, ∃ s, (e.1, s) ∈ es ∧ e.2 = jsTrim s := by
  induction es generalizing seen with
  | nil => intro e he; simp [keptFrom] at he
  | cons a es ih =>
    cases a with
    | mk t s =>
      intro e he
      by_cases hn : normOf s ∈ seen
      · rw [keptFrom, if_pos hn] at he
        obtain ⟨u, hu, he2⟩ := ih seen e he
        exact ⟨u, List.mem_cons_of_mem _ hu, he2⟩
      · rw [keptFrom, if_neg hn] at he
        rcases List.mem_cons.mp he with h1 | h1
        · subst h1
          exact ⟨s, List.mem_cons_self _ _, rfl⟩
        · obtain ⟨u, hu, he2⟩ := ih (normOf s :: seen) e h1
          exact ⟨u, List.mem_cons_of_mem _ hu, he2⟩

theorem keptFrom_trimmed (seen : List (List Char))
    (es : List (FTag × List Char)) :
    ∀ e ∈ keptFrom seen es, jsTrim e.2 = e.2 := by
  intro e he
  obtain ⟨s, _, he2⟩ := keptFrom_sources seen es e he
  rw [he2, jsTrim_idem]

theorem keptFrom_norm_notin (seen : List (List Char))
    (es : List (FTag × List Char)) :
    ∀ e ∈ keptFrom seen es, normOf e.2 ∉ seen := by
  induction es generalizing seen with
  | nil => intro e he; simp [keptFrom] at he
  | cons a es ih =>
    cases a with
    | mk t s =>
      intro e he
      by_cases hn : normOf s ∈ seen
      · rw [keptFrom, if_pos hn] at he
        exact ih seen e he
      · rw [keptFrom, if_neg hn] at he
        rcases List.mem_cons.mp he with h1 | h1
        · subst h1
          simpa [normOf_jsTrim] using hn
        · intro hmem
          exact ih (normOf s :: seen) e h1 (List.mem_cons_of_mem _ hmem)

theorem keptFrom_norm_nodup (seen : List (List Char))
    (es : List (FTag × List Char)) :
    ((keptFrom seen es).map (fun e => normOf e.2)).Nodup := by
  induction es generalizing seen with
  | nil => simp [keptFrom]
  | cons a es ih =>
    cases a with
    | mk t s =>
      by_cases hn : normOf s ∈ seen
      · rw [keptFrom, if_pos hn]
        exact ih seen
      · rw [keptFrom, if_neg hn]
        refine List.nodup_cons.mpr ⟨?_, ih (normOf s :: seen)⟩
        intro hmem
        simp only [List.mem_map] at hmem
        obtain ⟨e, he, hne⟩ := hmem
        have := keptFrom_norm_notin (normOf s :: seen) es e he
        rw [normOf_jsTrim] at hne
        exact this (hne ▸ List.mem_cons_self _ _)

theorem mem_norm_keptFrom (seen : List (List Char))
    (es : List (FTag × List Char)) (n : List Char) :
    n ∈ (keptFrom seen es).map (fun e => normOf e.2) ↔
      n ∉ seen ∧ ∃ e ∈ es, normOf e.2 = n := by
  induction es generalizing seen with
  | nil => simp [keptFrom]
  | cons a es ih =>
    cases a with
    | mk t s =>
      by_cases hn : normOf s ∈ seen
      · rw [keptFrom, if_pos hn, ih]
        constructor
        · rintro ⟨h1, e, he, h2⟩
          exact ⟨h1, e, List.mem_cons_of_mem _ he, h2⟩
        · rintro ⟨h1, e, he, h2⟩
          rcases List.mem_cons.mp he with h3 | h3
          · subst h3
            exact absurd (h2 ▸ hn) h1
          · exact ⟨h1, e, h3, h2⟩
      · rw [keptFrom, if_neg hn, List.map_cons]
        simp only [List.mem_cons, ih]
        constructor
        · rintro (h1 | ⟨h1, e, he, h2⟩)
          · rw [normOf_jsTrim] at h1
            subst h1
            exact ⟨hn, (t, s), Or.inl rfl, rfl⟩
          · exact ⟨fun hc => h1 (Or.inr hc), e, Or.inr he, h2⟩
        · rintro ⟨h1, e, he, h2⟩
          rcases he with h3 | h3
          · subst h3
            exact Or.inl (by rw [normOf_jsTrim, h2])
          · by_cases h4 : n = normOf s
            · exact Or.inl (by rw [normOf_jsTrim, h4])
            · refine Or.inr ⟨?_, e, h3, h2⟩
              intro hc
              rcases hc with h5 | h5
              · exact h4 h5
              · exact h1 h5

theorem keptFrom_of_first (seen : List (List Char))
    (pre : List (FTag × List Char)) (t : FTag) (s : List Char)
    (post : List (FTag × List Char))
    (hpre : ∀ e ∈ pre, normOf e.2 ≠ normOf s) (hseen : normOf s ∉ seen) :
    (t, jsTrim s) ∈ keptFrom seen (pre ++ (t, s) :: post) := by
  rw [keptFrom_append]
  refine List.mem_append_right _ ?_
  have hnot : normOf s ∉ seenAfter seen pre := by
    rw [mem_seenAfter]
    rintro (h | ⟨e, he, hn⟩)
    · exact hseen h
    · exact hpre e he hn
  rw [keptFrom, if_neg hnot]
  exact List.mem_cons_self _ _

theorem keptFrom_eq_self (seen : List (List Char))
    (es : List (FTag × List Char))
    (h1 : ∀ e ∈ es, normOf e.2 ∉ seen)
    (h2 : ((es.map (fun e => normOf e.2))).Nodup)
    (h3 : ∀ e ∈ es, jsTrim e.2 = e.2) :
    keptFrom seen es = es := by
  induction es generalizing seen with
  | nil => rfl
  | cons a es ih =>
    cases a with
    | mk t s =>
      have hn : normOf s ∉ seen := h1 (t, s) (List.mem_cons_self _ _)
      rw [keptFrom, if_neg hn]
      rw [List.map_cons, List.nodup_cons] at h2
      congr 1
      · rw [h3 (t, s) (List.mem_cons_self _ _)]
      · refine ih (normOf s :: seen) ?_ h2.2 ?_
        · intro e he hc
          rcases List.mem_cons.mp hc with h4 | h4
          · exact h2.1 (h4 ▸ List.mem_map_of_mem (fun e => normOf e.2) he)
          · exact h1 e (List.mem_cons_of_mem _ he) h4
        · intro e he
          exact h3 e (List.mem_cons_of_mem _ he)

/-! ### Numeric lemmas -/

theorem jsRound2_zero : jsRound2 0 = 0 := by
  norm_num [jsRound2]

theorem jsRound2_one_le {q : ℚ} (h : 1 ≤ q) : 1 ≤ jsRound2 q := by
  unfold jsRound2
  rw [le_div_iff (by norm_num : (0:ℚ) < 100)]
  have h2 : (100 : ℤ) ≤ ⌊q * 100 + 1 / 2⌋ := by
    apply Int.le_floor.mpr
    push_cast
    linarith
  calc (1:ℚ) * 100 = 100 := by norm_num
  _ ≤ ((⌊q * 100 + 1 / 2⌋ : ℤ) : ℚ) := by exact_mod_cast h2

theorem listAvg_one_le (l : List ℚ) (h : ∀ x ∈ l, 1 ≤ x) (hne : l ≠ []) :
    1 ≤ listAvg l := by
  unfold listAvg
  have hl : l.length ≠ 0 := by
    simpa using hne
  rw [if_neg hl]
  have hpos : (0:ℚ) < l.length := by
    exact_mod_cast Nat.pos_of_ne_zero hl
  rw [le_div_iff hpos]
  have hs := List.card_nsmul_le_sum l 1 h
  simpa [nsmul_eq_mul, mul_comm] using hs

/-- Scale predicate: a score lies in the declared 1 to 5 range. -/
def inScale (s : ℚ) : Bool := decide (1 ≤ s) && decide (s ≤ 5)

/-- Hypothesis form used by several claims: every non-null score of every
response lies in the declared 1 to 5 range. -/
def scoresInScale (rs : List AppraisalResponse) : Prop :=
  ∀ r ∈ rs, ∀ k ∈ allScoreKeys, Option.all inScale (getScore r k) = true

instance (rs : List AppraisalResponse) : Decidable (scoresInScale rs) := by
  unfold scoresInScale
  infer_instance

theorem inScale_of {r : AppraisalResponse} {k : ScoreKey} {s : ℚ}
    (h : Option.all inScale (getScore r k) = true)
    (hs : getScore r k = some s) : 1 ≤ s ∧ s ≤ 5 := by
  rw [hs] at h
  simp [Option.all, inScale] at h
  exact_mod_cast h

theorem mem_allScoreKeys (k : ScoreKey) : k ∈ allScoreKeys := by
  cases k <;> decide

theorem mem_bucketScores {x : ℚ} {keys : List ScoreKey}
    {g : List AppraisalResponse} (h : x ∈ bucketScores keys g) :
    ∃ r ∈ g, ∃ k ∈ keys, getScore r k = some x := by
  unfold bucketScores at h
  simp only [List.mem_flatMap, List.mem_filterMap, List.mem_map, id] at h
  obtain ⟨r, hr, o, ⟨k, hk, hko⟩, ho⟩ := h
  exact ⟨r, hr, k, hk, by rw [hko, ho]⟩

theorem bucketScores_in_scale {keys : List ScoreKey}
    {g rs : List AppraisalResponse} (hsub : ∀ r ∈ g, r ∈ rs)
    (hsc : scoresInScale rs) :
    ∀ x ∈ bucketScores keys g, 1 ≤ x ∧ x ≤ 5 := by
  intro x hx
  obtain ⟨r, hr, k, _, hs⟩ := mem_bucketScores hx
  exact inScale_of (hsc r (hsub r hr) k (mem_allScoreKeys k)) hs

/-! ### Sorting and grouping lemmas -/

theorem insertDesc_perm (x : ManagerSummary) (l : List ManagerSummary) :
    (insertDesc x l).Perm (x :: l) := by
  induction l with
  | nil => rfl
  | cons y ys ih =>
    unfold insertDesc
    split
    · exact ((ih.cons y).trans (List.Perm.swap x y ys)).symm.symm
    · rfl

theorem sortDesc_perm (l : List ManagerSummary) : (sortDesc l).Perm l := by
  induction l with
  | nil => rfl
  | cons x xs ih =>
    unfold sortDesc
    rw [List.foldr_cons]
    exact (insertDesc_perm x _).trans (ih.cons x)

theorem mem_managerSummaries {m : ManagerSummary}
    {rs : List AppraisalResponse} :
    m ∈ managerSummaries rs ↔ ∃ k ∈ managerKeys rs,
      m = mkSummary k (rs.filter (fun r => r.manager_name = k)) := by
  unfold managerSummaries
  rw [(sortDesc_perm _).mem_iff, List.mem_map]
  constructor
  · rintro ⟨k, hk, hm⟩
    exact ⟨k, hk, hm.symm⟩
  · rintro ⟨k, hk, hm⟩
    exact ⟨k, hk, hm.symm⟩

theorem mem_managerKeys {rs : List AppraisalResponse} {k : String} :
    k ∈ managerKeys rs ↔ ∃ r ∈ rs, r.manager_name = k := by
  unfold managerKeys
  suffices h : ∀ acc : List String, k ∈ rs.foldl (fun acc r =>
      if r.manager_name ∈ acc then acc else acc ++ [r.manager_name]) acc ↔
      k ∈ acc ∨ ∃ r ∈ rs, r.manager_name = k by
    simpa using h []
  induction rs with
  | nil => intro acc; simp
  | cons r rs ih =>
    intro acc
    rw [List.foldl_cons]
    by_cases h : r.manager_name ∈ acc
    · rw [if_pos h, ih]
      constructor
      · rintro (h1 | ⟨u, hu, h2⟩)
        · exact Or.inl h1
        · exact Or.inr ⟨u, List.mem_cons_of_mem _ hu, h2⟩
      · rintro (h1 | ⟨u, hu, h2⟩)
        · exact Or.inl h1
        · rcases List.mem_cons.mp hu with h3 | h3
          · subst h3; exact Or.inl (h2 ▸ h)
          · exact Or.inr ⟨u, h3, h2⟩
    · rw [if_neg h, ih]
      constructor
      · rintro (h1 | ⟨u, hu, h2⟩)
        · rcases List.mem_append.mp h1 with h3 | h3
          · exact Or.inl h3
          · refine Or.inr ⟨r, List.mem_cons_self _ _, ?_⟩
            exact (List.mem_singleton.mp h3).symm
        · exact Or.inr ⟨u, List.mem_cons_of_mem _ hu, h2⟩
      · rintro (h1 | ⟨u, hu, h2⟩)
        · exact Or.inl (List.mem_append_left _ h1)
        · rcases List.mem_cons.mp hu with h3 | h3
          · subst h3
            exact Or.inl (List.mem_append_right _ (by simpa using h2.symm))
          · exact Or.inr ⟨u, h3, h2⟩

theorem managerKeys_nodup (rs : List AppraisalResponse) :
    (managerKeys rs).Nodup := by
  unfold managerKeys
  suffices h : ∀ acc : List String, acc.Nodup → (rs.foldl (fun acc r =>
      if r.manager_name ∈ acc then acc else acc ++ [r.manager_name]) acc).Nodup by
    exact h [] List.nodup_nil
  induction rs with
  | nil => intro acc hacc; simpa using hacc
  | cons r rs ih =>
    intro acc hacc
    rw [List.foldl_cons]
    by_cases h : r.manager_name ∈ acc
    · rw [if_pos h]; exact ih acc hacc
    · rw [if_neg h]
      refine ih _ ?_
      simpa [List.nodup_append, hacc] using h

theorem jsRound2_eq_zero_iff {q : ℚ} (h : q = 0 ∨ 1 ≤ q) :
    jsRound2 q = 0 ↔ q = 0 := by
  constructor
  · intro h0
    rcases h with h | h
    · exact h
    · have := jsRound2_one_le h
      linarith
  · intro h0
    rw [h0, jsRound2_zero]

theorem catAvg_cases (keys : List ScoreKey) {g rs : List AppraisalResponse}
    (hsub : ∀ r ∈ g, r ∈ rs) (hsc : scoresInScale rs) :
    listAvg (bucketScores keys g) = 0 ∨ 1 ≤ listAvg (bucketScores keys g) := by
  by_cases hne : bucketScores keys g = []
  · left
    rw [hne]
    rfl
  · right
    exact listAvg_one_le _
      (fun x hx => (bucketScores_in_scale hsub hsc x hx).1) hne

theorem overall_helper (tl ro cf : ℚ) (htl : tl = 0 ∨ 1 ≤ tl)
    (hro : ro = 0 ∨ 1 ≤ ro) (hcf : cf = 0 ∨ 1 ≤ cf) :
    (jsRound2 (listAvg (([tl, ro, cf]).filter (fun s => decide (0 < s)))) = 0 ↔
      (jsRound2 tl = 0 ∧ jsRound2 ro = 0 ∧ jsRound2 cf = 0)) ∧
    (([tl, ro, cf]).filter (fun s => decide (0 < s)) =
      ([tl, ro, cf]).filter (fun s => decide (s ≠ 0))) := by
  have hcases : ∀ x ∈ ([tl, ro, cf] : List ℚ), x = 0 ∨ 1 ≤ x := by
    intro x hx
    rcases List.mem_cons.mp hx with rfl | hx
    · exact htl
    rcases List.mem_cons.mp hx with rfl | hx
    · exact hro
    rcases List.mem_cons.mp hx with rfl | hx
    · exact hcf
    · simp at hx
  have hfeq : ([tl, ro, cf]).filter (fun s => decide (0 < s)) =
      ([tl, ro, cf]).filter (fun s => decide (s ≠ 0)) := by
    apply List.filter_congr
    intro x hx
    rcases hcases x hx with h | h
    · simp [h]
    · have hpos : (0:ℚ) < x := by linarith
      simp [hpos, ne_of_gt hpos]
  refine ⟨?_, hfeq⟩
  rw [jsRound2_eq_zero_iff htl, jsRound2_eq_zero_iff hro,
    jsRound2_eq_zero_iff hcf]
  constructor
  · intro h0
    by_contra hne
    have hex : ∃ x ∈ ([tl, ro, cf] : List ℚ), 1 ≤ x := by
      by_contra hall
      push_neg at hall
      apply hne
      refine ⟨?_, ?_, ?_⟩
      · rcases htl with h | h
        · exact h
        · exact absurd h (by simpa using hall tl (by simp))
      · rcases hro with h | h
        · exact h
        · exact absurd h (by simpa using hall ro (by simp))
      · rcases hcf with h | h
        · exact h
        · exact absurd h (by simpa using hall cf (by simp))
    obtain ⟨x, hx, hx1⟩ := hex
    have hxf : x ∈ ([tl, ro, cf]).filter (fun s => decide (0 < s)) :=
      List.mem_filter.mpr ⟨hx, by simp; linarith⟩
    have hfne : ([tl, ro, cf]).filter (fun s => decide (0 < s)) ≠ [] :=
      List.ne_nil_of_mem hxf
    have h1le : 1 ≤ listAvg (([tl, ro, cf]).filter (fun s => decide (0 < s))) := by
      apply listAvg_one_le _ _ hfne
      intro y hy
      have h2 := List.mem_filter.mp hy
      rcases hcases y h2.1 with h | h
      · have : (0:ℚ) < y := by simpa using h2.2
        linarith
      · exact h
    have := jsRound2_one_le h1le
    linarith
  · rintro ⟨h1, h2, h3⟩
    subst h1
    subst h2
    subst h3
    norm_num [listAvg, jsRound2]

/-- Claim C1: for every manager summary produced from a filtered response set
whose scores are on the declared 1 to 5 scale, the overall score is 0 exactly
when all three category averages are 0, and otherwise equals the mean of the
non-zero category averages, rounded to 2 decimal places. -/
theorem c1_overall_score (rs : List AppraisalResponse)
    (hsc : scoresInScale rs) :
    ∀ m ∈ managerSummaries rs,
      (m.overall_score = 0 ↔ m.avg_team_leadership = 0 ∧
        m.avg_results_orientation = 0 ∧ m.avg_cultural_fit = 0) ∧
      (¬(m.avg_team_leadership = 0 ∧ m.avg_results_orientation = 0 ∧
          m.avg_cultural_fit = 0) →
        m.overall_score = jsRound2 (listAvg
          (([listAvg (bucketScores teamLeadershipKeys m.responses),
             listAvg (bucketScores resultsOrientationKeys m.responses),
             listAvg (bucketScores culturalFitKeys m.responses)]).filter
            (fun s => decide (s ≠ 0))))) := by
  intro m hm
  obtain ⟨k, hk, hmk⟩ := mem_managerSummaries.mp hm
  subst hmk
  have hsub : ∀ r ∈ rs.filter (fun r => r.manager_name = k), r ∈ rs :=
    fun r hr => (List.mem_filter.mp hr).1
  have htl := catAvg_cases teamLeadershipKeys hsub hsc
  have hro := catAvg_cases resultsOrientationKeys hsub hsc
  have hcf := catAvg_cases culturalFitKeys hsub hsc
  obtain ⟨hiff, hfeq⟩ := overall_helper _ _ _ htl hro hcf
  simp only [mkSummary]
  exact ⟨hiff, fun _ => by rw [← hfeq]⟩

/-- Concrete input for the C1 witness: the worked example of the
specification, two responses for one manager with team-leadership scores
only. -/
def janeRs : List AppraisalResponse :=
  [{ manager_name := "Jane",
     empowers_team_score := some 4, mentors_coaches_score := some 4,
     effective_direction_score := some 4,
     establishes_rapport_score := some 4,
     sets_clear_goals_score := some 4 },
   { manager_name := "Jane",
     empowers_team_score := some 2, mentors_coaches_score := some 2,
     effective_direction_score := some 2,
     establishes_rapport_score := some 2,
     sets_clear_goals_score := some 2 }]

/-- Witness for C1 at the worked example of the specification. -/
theorem c1_overall_score_witness :
    ((mkSummary ("Jane")
        (janeRs.filter (fun r => r.manager_name = "Jane"))).overall_score = 0 ↔
      (mkSummary ("Jane")
        (janeRs.filter (fun r => r.manager_name = "Jane"))).avg_team_leadership = 0 ∧
      (mkSummary ("Jane")
        (janeRs.filter (fun r => r.manager_name = "Jane"))).avg_results_orientation = 0 ∧
      (mkSummary ("Jane")
        (janeRs.filter (fun r => r.manager_name = "Jane"))).avg_cultural_fit = 0) ∧
    (¬((mkSummary ("Jane")
        (janeRs.filter (fun r => r.manager_name = "Jane"))).avg_team_leadership = 0 ∧
       (mkSummary ("Jane")
        (janeRs.filter (fun r => r.manager_name = "Jane"))).avg_results_orientation = 0 ∧
       (mkSummary ("Jane")
        (janeRs.filter (fun r => r.manager_name = "Jane"))).avg_cultural_fit = 0) →
      (mkSummary ("Jane")
        (janeRs.filter (fun r => r.manager_name = "Jane"))).overall_score =
        jsRound2 (listAvg
          (([listAvg (bucketScores teamLeadershipKeys
              (mkSummary ("Jane")
                (janeRs.filter (fun r => r.manager_name = "Jane"))).responses),
             listAvg (bucketScores resultsOrientationKeys
              (mkSummary ("Jane")
                (janeRs.filter (fun r => r.manager_name = "Jane"))).responses),
             listAvg (bucketScores culturalFitKeys
              (mkSummary ("Jane")
                (janeRs.filter (fun r => r.manager_name = "Jane"))).responses)]).filter
            (fun s => decide (s ≠ 0))))) :=
  c1_overall_score janeRs (by decide) _
    (mem_managerSummaries.mpr ⟨"Jane", by decide, rfl⟩)

theorem sum_map_indicator (ks : List String) (x : String) (hnd : ks.Nodup)
    (hx : x ∈ ks) :
    (ks.map (fun k => if x = k then (1:ℕ) else 0)).sum = 1 := by
  induction ks with
  | nil => simp at hx
  | cons a ks ih =>
    rw [List.nodup_cons] at hnd
    rcases List.mem_cons.mp hx with h | h
    · subst h
      have hz : (ks.map (fun k => if x = k then (1:ℕ) else 0)).sum = 0 := by
        rw [List.sum_eq_zero]
        intro y hy
        simp only [List.mem_map] at hy
        obtain ⟨k, hk, hky⟩ := hy
        have : ¬ x = k := fun hc => hnd.1 (hc ▸ hk)
        simp [← hky, this]
      simp [hz]
    · have hne : ¬ x = a := fun hc => hnd.1 (hc ▸ h)
      simp [hne, ih hnd.2 h]

theorem length_eq_sum_group_lengths (rs : List AppraisalResponse)
    (ks : List String) (hnd : ks.Nodup)
    (hall : ∀ r ∈ rs, r.manager_name ∈ ks) :
    (ks.map (fun k =>
      (rs.filter (fun r => r.manager_name = k)).length)).sum = rs.length := by
  induction rs with
  | nil => simp
  | cons r rs ih =>
    have hr := hall r (List.mem_cons_self _ _)
    have hall2 : ∀ x ∈ rs, x.manager_name ∈ ks :=
      fun x hx => hall x (List.mem_cons_of_mem _ hx)
    have hsplit : ∀ k, ((r :: rs).filter (fun x => x.manager_name = k)).length =
        (if r.manager_name = k then 1 else 0) +
          (rs.filter (fun x => x.manager_name = k)).length := by
      intro k
      by_cases h : r.manager_name = k
      · simp [List.filter_cons, h, Nat.add_comm]
      · simp [List.filter_cons, h]
    calc (ks.map (fun k =>
        ((r :: rs).filter (fun x => x.manager_name = k)).length)).sum
        = (ks.map (fun k => (if r.manager_name = k then 1 else 0) +
            (rs.filter (fun x => x.manager_name = k)).length)).sum := by
          congr 1
          exact List.map_congr_left (fun k _ => hsplit k)
      _ = (ks.map (fun k => if r.manager_name = k then (1:ℕ) else 0)).sum +
            (ks.map (fun k =>
              (rs.filter (fun x => x.manager_name = k)).length)).sum := by
          rw [← List.sum_map_add]
      _ = 1 + rs.length := by
          rw [sum_map_indicator ks r.manager_name hnd hr, ih hall2]
      _ = (r :: rs).length := by
          simp [Nat.add_comm]

/-- Claim C7: the total response counts of the manager summaries sum to the
size of the filtered response set: every response is counted in exactly one
manager's group. -/
theorem c7_sum_total_responses (rs : List AppraisalResponse) :
    ((managerSummaries rs).map (fun m => m.total_responses)).sum = rs.length := by
  unfold managerSummaries
  rw [((sortDesc_perm _).map (fun m => m.total_responses)).sum_eq]
  rw [List.map_map]
  have : ((fun m => m.total_responses) ∘ (fun k =>
      mkSummary k (rs.filter (fun r => r.manager_name = k)))) = (fun k =>
      (rs.filter (fun r => r.manager_name = k)).length) := by
    funext k
    simp [mkSummary]
  rw [this]
  exact length_eq_sum_group_lengths rs (managerKeys rs) (managerKeys_nodup rs)
    (fun r hr => mem_managerKeys.mpr ⟨r, hr, rfl⟩)

theorem jsRound1_zero : jsRound1 0 = 0 := by
  norm_num [jsRound1]

/-- Keys of the engine catalog, in catalog order. -/
def engineKeys : List ScoreKey := engineCatalog.map Prod.fst

/-- Placeholder entry for positional indexing. -/
def defaultCS : CompetencyScore := ⟨"", 0, 5, 0⟩

/-- Claim C6: `competencyScores` returns exactly 13 entries in fixed catalog
order with the exact display names; each entry's score is the 2-decimal
rounding of the mean of all non-null values of its key across the whole
filtered set, its percentage is relative to a maximum of 5 (rounded to one
decimal); the empty set yields 13 entries with score 0 and percentage 0, and
`managerSummaries` of the empty set is empty. -/
theorem c6_competency_scores (rs : List AppraisalResponse) :
    (competencyScores rs).length = 13 ∧
    (competencyScores rs).map (fun c => c.name) =
      ["Empowers Team", "Mentors & Coaches", "Effective Direction",
       "Establishes Rapport", "Sets Clear Goals", "Open to Ideas",
       "Sense of Urgency", "Analyzes Change", "Final Say",
       "Confidence & Integrity", "Patient & Humble", "Flat & Collaborative",
       "Approachable"] ∧
    (∀ i : Fin 13,
      ((competencyScores rs).getD i defaultCS).score =
        jsRound2 (listAvg (rs.filterMap (fun r =>
          getScore r (engineKeys.getD i .empowers_team)))) ∧
      ((competencyScores rs).getD i defaultCS).maxScore = 5 ∧
      ((competencyScores rs).getD i defaultCS).percentage =
        jsRound1 (listAvg (rs.filterMap (fun r =>
          getScore r (engineKeys.getD i .empowers_team))) / 5 * 100)) ∧
    (competencyScores [] =
      ["Empowers Team", "Mentors & Coaches", "Effective Direction",
       "Establishes Rapport", "Sets Clear Goals", "Open to Ideas",
       "Sense of Urgency", "Analyzes Change", "Final Say",
       "Confidence & Integrity", "Patient & Humble", "Flat & Collaborative",
       "Approachable"].map (fun n => (⟨n, 0, 5, 0⟩ : CompetencyScore))) ∧
    managerSummaries [] = [] := by
  refine ⟨?_, ?_, ?_, ?_, rfl⟩
  · simp [competencyScores, engineCatalog]
  · simp [competencyScores, engineCatalog]
  · intro i
    fin_cases i <;>
      simp [competencyScores, engineCatalog, engineKeys, listAvg]
  · simp [competencyScores, engineCatalog, listAvg, jsRound2_zero, jsRound1_zero]

/-! ### Lemmas for the score-distribution histogram -/

/-- Integer score on the declared scale. -/
def intScore (s : ℚ) : Bool :=
  decide (s = 1) || decide (s = 2) || decide (s = 3) || decide (s = 4) ||
    decide (s = 5)

/-- Hypothesis form of claim C8: every non-null score is an integer between
1 and 5. -/
def scoresIntOneToFive (rs : List AppraisalResponse) : Prop :=
  ∀ r ∈ rs, ∀ k ∈ allScoreKeys, Option.all intScore (getScore r k) = true

instance (rs : List AppraisalResponse) : Decidable (scoresIntOneToFive rs) := by
  unfold scoresIntOneToFive
  infer_instance

theorem intScore_range {s : ℚ} (h : intScore s = true) : 1 ≤ s ∧ s ≤ 5 := by
  unfold intScore at h
  simp only [Bool.or_eq_true, decide_eq_true_eq] at h
  rcases h with ((((h | h) | h) | h) | h) <;> subst h <;> norm_num

theorem bumpKey_sum (d : List (ℚ × ℕ)) (s : ℚ) :
    ((bumpKey d s).map (fun p => p.2)).sum =
      (d.map (fun p => p.2)).sum + 1 := by
  induction d with
  | nil => simp [bumpKey]
  | cons p d ih =>
    cases p with
    | mk k c =>
      by_cases h : k = s
      · simp only [bumpKey, if_pos h, List.map_cons, List.sum_cons]
        omega
      · simp only [bumpKey, if_neg h, List.map_cons, List.sum_cons, ih]
        omega

theorem foldKeys_sum (r : AppraisalResponse) (keys : List ScoreKey)
    (d : List (ℚ × ℕ))
    (h : ∀ k ∈ keys, Option.all intScore (getScore r k) = true) :
    ((keys.foldl (distKeyStep r) d).map (fun p => p.2)).sum =
      (d.map (fun p => p.2)).sum +
        (keys.filter (fun k => (getScore r k).isSome)).length := by
  induction keys generalizing d with
  | nil => simp
  | cons k keys ih =>
    have hk := h k (List.mem_cons_self _ _)
    have hrest : ∀ k ∈ keys, Option.all intScore (getScore r k) = true :=
      fun k hk2 => h k (List.mem_cons_of_mem _ hk2)
    rw [List.foldl_cons]
    cases hg : getScore r k with
    | none =>
      have hd : distKeyStep r d k = d := by
        unfold distKeyStep
        rw [hg]
      rw [hd, ih d hrest, List.filter_cons]
      simp [hg]
    | some s =>
      rw [hg] at hk
      have hs : intScore s = true := by simpa [Option.all] using hk
      have hrange := intScore_range hs
      have hstep : distKeyStep r d k = bumpKey d s := by
        unfold distKeyStep
        rw [hg]
        exact if_pos hrange
      rw [hstep, ih _ hrest, bumpKey_sum, List.filter_cons]
      have : (getScore r k).isSome = true := by rw [hg]; rfl
      rw [this]
      simp
      omega

/-- Claim C8: when every non-null competency score is an integer between 1
and 5, the histogram values of `scoreDistribution` sum to the total count of
non-null competency-score occurrences across the filtered set. -/
theorem c8_distribution_sum (rs : List AppraisalResponse)
    (h : scoresIntOneToFive rs) :
    ((scoreDistribution rs).map (fun p => p.2)).sum =
      (rs.map (fun r =>
        (allScoreKeys.filter (fun k => (getScore r k).isSome)).length)).sum := by
  unfold scoreDistribution
  suffices hgen : ∀ (d : List (ℚ × ℕ)),
      (∀ r ∈ rs, ∀ k ∈ allScoreKeys, Option.all intScore (getScore r k) = true) →
      ((rs.foldl distStep d).map (fun p => p.2)).sum =
        (d.map (fun p => p.2)).sum + (rs.map (fun r =>
          (allScoreKeys.filter (fun k => (getScore r k).isSome)).length)).sum by
    rw [hgen [(1, 0), (2, 0), (3, 0), (4, 0), (5, 0)] h]
    simp
  clear h
  induction rs with
  | nil => intro d h; simp
  | cons r rs ih =>
    intro d h
    rw [List.foldl_cons, ih _ (fun x hx => h x (List.mem_cons_of_mem _ hx))]
    have hone : ((distStep d r).map (fun p => p.2)).sum =
        (d.map (fun p => p.2)).sum +
          (allScoreKeys.filter (fun k => (getScore r k).isSome)).length := by
      unfold distStep
      exact foldKeys_sum r allScoreKeys d (h r (List.mem_cons_self _ _))
    rw [hone]
    simp only [List.map_cons, List.sum_cons]
    omega

/-- Witness for C8 on a concrete response set with integer scores and one
null score. -/
theorem c8_distribution_sum_witness :
    ((scoreDistribution
      [{ manager_name := "A", empowers_team_score := some 3,
         final_say_score := some 5, mentors_coaches_score := some 3 },
       { manager_name := "B", approachable_score := some 1 }]).map
        (fun p => p.2)).sum =
      ([{ manager_name := "A", empowers_team_score := some 3,
          final_say_score := some 5, mentors_coaches_score := some 3 },
        { manager_name := "B", approachable_score := some 1 }].map
        (fun r : AppraisalResponse =>
          (allScoreKeys.filter (fun k => (getScore r k).isSome)).length)).sum :=
  c8_distribution_sum _ (by decide)

/-! ### Claim C2: the filter rule -/

theorem keepResponse_eq_amended (f : FilterState) (r : AppraisalResponse) :
    keepResponse f r = decide (amendedKeep f r) := by
  have hsplit : ∀ a b : Bool,
      (if a then false else if b then false else true) = (!a && !b) := by
    intro a b
    cases a <;> cases b <;> rfl
  unfold keepResponse
  rw [hsplit]
  rw [Bool.eq_iff_iff]
  simp only [Bool.and_eq_true, Bool.not_eq_true', Bool.and_eq_false_iff,
    decide_eq_true_eq, decide_eq_false_iff_not, amendedKeep]
  cases hrel : r.relationship with
  | none =>
    simp [relTruthy, hrel, List.length_pos, List.length_eq_zero]
  | some s =>
    by_cases hs : s = ""
    · simp [relTruthy, hrel, hs, List.length_pos, List.length_eq_zero]
      intro _
      exact Or.inl (Or.inr rfl)
    · simp [relTruthy, hrel, hs, List.length_pos, List.length_eq_zero,
        String.isEmpty_iff]

/-- Concrete counterexample input for C2: a response with an absent
relationship. -/
def rNoRel : AppraisalResponse := { manager_name := "A" }

/-- Concrete counterexample input for C2: an empty manager filter together
with a non-empty relationship filter. -/
def fPeer : FilterState := { managers := [], relationships := ["Peer"] }

/-- Counterexample to claim C2 as stated: with an empty manager filter and
the relationship filter `{"Peer"}`, a response with an absent relationship is
kept by the code, while the claimed rule (relationship set empty, or
relationship in the set, or relationship absent and the set empty) rejects
it. -/
theorem c2_filter_counterexample :
    filteredResponses [rNoRel] fPeer = [rNoRel] ∧ ¬ claimKeep fPeer rNoRel := by
  constructor
  · decide
  · decide

/-- Amended claim C2: the filter is the pure, order-preserving `List.filter`
of the predicate: keep a response iff (the manager set is empty OR its
manager is selected) AND (the relationship set is empty OR its relationship
is absent or the empty string OR its relationship is selected); with both
sets empty the filter is the identity. -/
theorem c2_filter_amended (f : FilterState) (rs : List AppraisalResponse) :
    filteredResponses rs f = rs.filter (fun r => decide (amendedKeep f r)) ∧
    (f.managers = [] → f.relationships = [] → filteredResponses rs f = rs) := by
  constructor
  · unfold filteredResponses
    exact List.filter_congr (fun r _ => keepResponse_eq_amended f r)
  · intro hm hr
    unfold filteredResponses
    rw [List.filter_eq_self]
    intro r _
    rw [keepResponse_eq_amended, decide_eq_true_eq]
    constructor
    · exact Or.inl hm
    · exact Or.inl hr

/-- Witness for C2 amended at concrete inputs: the filter agrees with the
amended predicate on the counterexample input, and the both-empty filter is
the identity. -/
theorem c2_filter_amended_witness :
    (filteredResponses [rNoRel] fPeer =
      ([rNoRel]).filter (fun r => decide (amendedKeep fPeer r))) ∧
    filteredResponses [rNoRel]
      { managers := [], relationships := [] } = [rNoRel] :=
  ⟨(c2_filter_amended fPeer [rNoRel]).1,
   (c2_filter_amended { managers := [], relationships := [] }
     [rNoRel]).2 rfl rfl⟩

/-! ### Claim C4: performance tiers -/

theorem hundredths_le (k n : ℕ) : ((k : ℚ) / 100 ≤ (n : ℚ) / 100) ↔ k ≤ n := by
  rw [div_le_div_iff_of_pos_right (by norm_num : (0:ℚ) < 100)]
  exact_mod_cast Iff.rfl

/-- Placeholder range for positional indexing. -/
def dfltRange : TierRange := ⟨"", 0, 0⟩

theorem inTierRange_hundredths (rg : TierRange) (lo hi : ℕ)
    (m : ManagerSummary) (n : ℕ) (hm : m.overall_score = (n : ℚ) / 100)
    (hlo : rg.min = (lo : ℚ) / 100) (hhi : rg.max = (hi : ℚ) / 100) :
    inTierRange rg m = decide (lo ≤ n ∧ n ≤ hi) := by
  unfold inTierRange
  rw [hm, hlo, hhi, Bool.eq_iff_iff]
  simp only [Bool.and_eq_true, decide_eq_true_eq, hundredths_le]

theorem claimedTier_hundredths (n : ℕ) :
    claimedTier ((n : ℚ) / 100) =
      (if 350 ≤ n then "Exceptional" else if 300 ≤ n then "Strong"
       else if 250 ≤ n then "Developing"
       else if 200 ≤ n then "Needs Improvement" else "Critical") := by
  unfold claimedTier
  have h1 : ((3.5 : ℚ) ≤ (n : ℚ) / 100) ↔ 350 ≤ n := by
    rw [show (3.5 : ℚ) = (350 : ℚ) / 100 by norm_num]
    exact_mod_cast hundredths_le 350 n
  have h2 : ((3.0 : ℚ) ≤ (n : ℚ) / 100) ↔ 300 ≤ n := by
    rw [show (3.0 : ℚ) = (300 : ℚ) / 100 by norm_num]
    exact_mod_cast hundredths_le 300 n
  have h3 : ((2.5 : ℚ) ≤ (n : ℚ) / 100) ↔ 250 ≤ n := by
    rw [show (2.5 : ℚ) = (250 : ℚ) / 100 by norm_num]
    exact_mod_cast hundredths_le 250 n
  have h4 : ((2.0 : ℚ) ≤ (n : ℚ) / 100) ↔ 200 ≤ n := by
    rw [show (2.0 : ℚ) = (200 : ℚ) / 100 by norm_num]
    exact_mod_cast hundredths_le 200 n
  simp only [h1, h2, h3, h4]

theorem exportTier_hundredths (n : ℕ) :
    exportTier ((n : ℚ) / 100) =
      (if 350 ≤ n then "Exceptional" else if 300 ≤ n then "Strong"
       else if 250 ≤ n then "Developing" else "Needs Improvement") := by
  unfold exportTier
  have h1 : ((3.5 : ℚ) ≤ (n : ℚ) / 100) ↔ 350 ≤ n := by
    rw [show (3.5 : ℚ) = (350 : ℚ) / 100 by norm_num]
    exact_mod_cast hundredths_le 350 n
  have h2 : ((3.0 : ℚ) ≤ (n : ℚ) / 100) ↔ 300 ≤ n := by
    rw [show (3.0 : ℚ) = (300 : ℚ) / 100 by norm_num]
    exact_mod_cast hundredths_le 300 n
  have h3 : ((2.5 : ℚ) ≤ (n : ℚ) / 100) ↔ 250 ≤ n := by
    rw [show (2.5 : ℚ) = (250 : ℚ) / 100 by norm_num]
    exact_mod_cast hundredths_le 250 n
  simp only [h1, h2, h3]

theorem inTierRange_eq_claimed {ms : List ManagerSummary}
    (h : ∀ m ∈ ms, ∃ n : ℕ, n ≤ 400 ∧ m.overall_score = (n : ℚ) / 100) :
    ∀ m ∈ ms, ∀ i : Fin 5,
      inTierRange (tierRanges.getD i dfltRange) m =
        decide (claimedTier m.overall_score = tierNames.getD i "") := by
  intro m hm i
  obtain ⟨n, hn, hov⟩ := h m hm
  fin_cases i
  · rw [show tierRanges.getD 0 dfltRange =
        ⟨"Exceptional (3.5-4.0)", 3.5, 4.0⟩ from rfl,
      inTierRange_hundredths _ 350 400 m n hov (by norm_num) (by norm_num),
      hov, claimedTier_hundredths, Bool.eq_iff_iff]
    simp only [decide_eq_true_eq, tierNames, Fin.isValue, Fin.val_zero,
      Fin.val_one, Fin.val_two, List.getD_cons_zero, List.getD_cons_succ]
    split_ifs <;> simp_all <;> omega
  · rw [show tierRanges.getD 1 dfltRange =
        ⟨"Strong (3.0-3.49)", 3.0, 3.49⟩ from rfl,
      inTierRange_hundredths _ 300 349 m n hov (by norm_num) (by norm_num),
      hov, claimedTier_hundredths, Bool.eq_iff_iff]
    simp only [decide_eq_true_eq, tierNames, Fin.isValue, Fin.val_zero,
      Fin.val_one, Fin.val_two, List.getD_cons_zero, List.getD_cons_succ]
    split_ifs <;> simp_all <;> omega
  · rw [show tierRanges.getD 2 dfltRange =
        ⟨"Developing (2.5-2.99)", 2.5, 2.99⟩ from rfl,
      inTierRange_hundredths _ 250 299 m n hov (by norm_num) (by norm_num),
      hov, claimedTier_hundredths, Bool.eq_iff_iff]
    simp only [decide_eq_true_eq, tierNames, Fin.isValue, Fin.val_zero,
      Fin.val_one, Fin.val_two, List.getD_cons_zero, List.getD_cons_succ]
    split_ifs <;> simp_all <;> omega
  · rw [show tierRanges.getD 3 dfltRange =
        ⟨"Needs Improvement (2.0-2.49)", 2.0, 2.49⟩ from rfl,
      inTierRange_hundredths _ 200 249 m n hov (by norm_num) (by norm_num),
      hov, claimedTier_hundredths, Bool.eq_iff_iff]
    simp only [decide_eq_true_eq, tierNames, Fin.isValue, Fin.val_zero,
      Fin.val_one, Fin.val_two, List.getD_cons_zero, List.getD_cons_succ]
    split_ifs <;> simp_all <;> omega
  · rw [show tierRanges.getD 4 dfltRange =
        ⟨"Critical (<2.0)", 0, 1.99⟩ from rfl,
      inTierRange_hundredths _ 0 199 m n hov (by norm_num) (by norm_num),
      hov, claimedTier_hundredths, Bool.eq_iff_iff]
    simp only [decide_eq_true_eq, tierNames, Fin.isValue, Fin.val_zero,
      Fin.val_one, Fin.val_two, List.getD_cons_zero, List.getD_cons_succ]
    split_ifs <;> simp_all <;> omega

theorem claimedTier_count (ov : ℚ) (n : ℕ) (hov : ov = (n : ℚ) / 100) :
    (tierNames.countP (fun nm => decide (claimedTier ov = nm))) = 1 := by
  subst hov
  rw [claimedTier_hundredths]
  by_cases h1 : 350 ≤ n
  · simp [tierNames, List.countP_cons, h1]
  · by_cases h2 : 300 ≤ n
    · simp [tierNames, List.countP_cons, h1, h2]
    · by_cases h3 : 250 ≤ n
      · simp [tierNames, List.countP_cons, h1, h2, h3]
      · by_cases h4 : 200 ≤ n
        · simp [tierNames, List.countP_cons, h1, h2, h3, h4]
        · simp [tierNames, List.countP_cons, h1, h2, h3, h4]

/-- Amended claim C4: for manager summaries whose overall score is a
two-decimal value in the 0 to 4 range (the form `managerSummaries` produces on
the 4-point data the exporter assumes), the histogram of
`getScoreDistribution` classifies every manager into exactly one tier, and
membership in the i-th range coincides with the claimed fixed-breakpoint rule;
the per-manager label of the exporter however agrees with the rule only from
2.0 upwards and labels every lower score "Needs Improvement" in place of
"Critical". -/
theorem c4_tiers_amended (ms : List ManagerSummary)
    (h : ∀ m ∈ ms, ∃ n : ℕ, n ≤ 400 ∧ m.overall_score = (n : ℚ) / 100) :
    (∀ m ∈ ms, tierRanges.countP (fun rg => inTierRange rg m) = 1) ∧
    (∀ m ∈ ms, ∀ i : Fin 5,
      inTierRange (tierRanges.getD i dfltRange) m = true ↔
        claimedTier m.overall_score = tierNames.getD i "") ∧
    (∀ m ∈ ms, exportTier m.overall_score =
      (if (2 : ℚ) ≤ m.overall_score then claimedTier m.overall_score
       else ("Needs Improvement"))) ∧
    (∀ i : Fin 5, ((getScoreDistribution ms).getD i (dfltRange, 0, [])).2.1 =
      ms.countP (fun m => decide (claimedTier m.overall_score =
        tierNames.getD i ""))) := by
  have key := inTierRange_eq_claimed h
  refine ⟨?_, ?_, ?_, ?_⟩
  · intro m hm
    obtain ⟨n, hn, hov⟩ := h m hm
    have e0 : inTierRange ⟨"Exceptional (3.5-4.0)", 3.5, 4.0⟩ m =
        decide (claimedTier m.overall_score = ("Exceptional")) := key m hm 0
    have e1 : inTierRange ⟨"Strong (3.0-3.49)", 3.0, 3.49⟩ m =
        decide (claimedTier m.overall_score = ("Strong")) := key m hm 1
    have e2 : inTierRange ⟨"Developing (2.5-2.99)", 2.5, 2.99⟩ m =
        decide (claimedTier m.overall_score = ("Developing")) := key m hm 2
    have e3 : inTierRange ⟨"Needs Improvement (2.0-2.49)", 2.0, 2.49⟩ m =
        decide (claimedTier m.overall_score = ("Needs Improvement")) := key m hm 3
    have e4 : inTierRange ⟨"Critical (<2.0)", 0, 1.99⟩ m =
        decide (claimedTier m.overall_score = ("Critical")) := key m hm 4
    rw [show tierRanges = [⟨"Exceptional (3.5-4.0)", 3.5, 4.0⟩,
      ⟨"Strong (3.0-3.49)", 3.0, 3.49⟩, ⟨"Developing (2.5-2.99)", 2.5, 2.99⟩,
      ⟨"Needs Improvement (2.0-2.49)", 2.0, 2.49⟩,
      ⟨"Critical (<2.0)", 0, 1.99⟩] from rfl]
    simp only [List.countP_cons, List.countP_nil, e0, e1, e2, e3, e4, hov,
      claimedTier_hundredths]
    by_cases h1 : 350 ≤ n
    · simp [h1]
    · by_cases h2 : 300 ≤ n
      · simp [h1, h2]
      · by_cases h3 : 250 ≤ n
        · simp [h1, h2, h3]
        · by_cases h4 : 200 ≤ n
          · simp [h1, h2, h3, h4]
          · simp [h1, h2, h3, h4]
  · intro m hm i
    rw [key m hm i]
    exact ⟨fun hx => of_decide_eq_true hx, fun hx => decide_eq_true hx⟩
  · intro m hm
    obtain ⟨n, hn, hov⟩ := h m hm
    have hiff : ((2:ℚ) ≤ (n : ℚ) / 100) ↔ 200 ≤ n := by
      rw [show (2:ℚ) = (200 : ℚ) / 100 by norm_num]
      exact_mod_cast hundredths_le 200 n
    rw [hov, exportTier_hundredths, claimedTier_hundredths]
    by_cases h200 : 200 ≤ n
    · rw [if_pos (hiff.mpr h200)]
      split_ifs <;> first | rfl | omega
    · rw [if_neg (fun hc => h200 (hiff.mp hc))]
      split_ifs <;> first | rfl | omega
  · intro i
    fin_cases i
    · show (ms.filter (inTierRange ⟨"Exceptional (3.5-4.0)", 3.5, 4.0⟩)).length = _
      rw [← List.countP_eq_length_filter]
      refine List.countP_congr ?_
      intro m hm
      have kk : inTierRange ⟨"Exceptional (3.5-4.0)", 3.5, 4.0⟩ m =
          decide (claimedTier m.overall_score = ("Exceptional")) := key m hm 0
      rw [kk]
      exact Iff.rfl
    · show (ms.filter (inTierRange ⟨"Strong (3.0-3.49)", 3.0, 3.49⟩)).length = _
      rw [← List.countP_eq_length_filter]
      refine List.countP_congr ?_
      intro m hm
      have kk : inTierRange ⟨"Strong (3.0-3.49)", 3.0, 3.49⟩ m =
          decide (claimedTier m.overall_score = ("Strong")) := key m hm 1
      rw [kk]
      exact Iff.rfl
    · show (ms.filter (inTierRange ⟨"Developing (2.5-2.99)", 2.5, 2.99⟩)).length = _
      rw [← List.countP_eq_length_filter]
      refine List.countP_congr ?_
      intro m hm
      have kk : inTierRange ⟨"Developing (2.5-2.99)", 2.5, 2.99⟩ m =
          decide (claimedTier m.overall_score = ("Developing")) := key m hm 2
      rw [kk]
      exact Iff.rfl
    · show (ms.filter (inTierRange
          ⟨"Needs Improvement (2.0-2.49)", 2.0, 2.49⟩)).length = _
      rw [← List.countP_eq_length_filter]
      refine List.countP_congr ?_
      intro m hm
      have kk : inTierRange ⟨"Needs Improvement (2.0-2.49)", 2.0, 2.49⟩ m =
          decide (claimedTier m.overall_score = ("Needs Improvement")) := key m hm 3
      rw [kk]
      exact Iff.rfl
    · show (ms.filter (inTierRange ⟨"Critical (<2.0)", 0, 1.99⟩)).length = _
      rw [← List.countP_eq_length_filter]
      refine List.countP_congr ?_
      intro m hm
      have kk : inTierRange ⟨"Critical (<2.0)", 0, 1.99⟩ m =
          decide (claimedTier m.overall_score = ("Critical")) := key m hm 4
      rw [kk]
      exact Iff.rfl

/-- Concrete response with every competency score 1. -/
def rOnes : AppraisalResponse :=
  { manager_name := "A",
    empowers_team_score := some 1, final_say_score := some 1,
    mentors_coaches_score := some 1, effective_direction_score := some 1,
    establishes_rapport_score := some 1, sets_clear_goals_score := some 1,
    open_to_ideas_score := some 1, sense_of_urgency_score := some 1,
    analyzes_change_score := some 1, confidence_integrity_score := some 1,
    patient_humble_score := some 1, flat_collaborative_score := some 1,
    approachable_score := some 1 }

/-- Concrete response with every competency score 5. -/
def rFives : AppraisalResponse :=
  { manager_name := "B",
    empowers_team_score := some 5, final_say_score := some 5,
    mentors_coaches_score := some 5, effective_direction_score := some 5,
    establishes_rapport_score := some 5, sets_clear_goals_score := some 5,
    open_to_ideas_score := some 5, sense_of_urgency_score := some 5,
    analyzes_change_score := some 5, confidence_integrity_score := some 5,
    patient_humble_score := some 5, flat_collaborative_score := some 5,
    approachable_score := some 5 }

theorem overall_rOnes : (mkSummary ("A") [rOnes]).overall_score = 1 := by
  have hb1 : bucketScores teamLeadershipKeys [rOnes] = [1, 1, 1, 1, 1] := rfl
  have hb2 : bucketScores resultsOrientationKeys [rOnes] = [1, 1, 1, 1] := rfl
  have hb3 : bucketScores culturalFitKeys [rOnes] = [1, 1, 1, 1] := rfl
  show jsRound2 (listAvg (([listAvg (bucketScores teamLeadershipKeys [rOnes]),
    listAvg (bucketScores resultsOrientationKeys [rOnes]),
    listAvg (bucketScores culturalFitKeys [rOnes])]).filter
      (fun s => decide (0 < s)))) = 1
  rw [hb1, hb2, hb3]
  have ha1 : listAvg [(1:ℚ), 1, 1, 1, 1] = 1 := by norm_num [listAvg]
  have ha2 : listAvg [(1:ℚ), 1, 1, 1] = 1 := by norm_num [listAvg]
  rw [ha1, ha2]
  have hf : (([1, 1, 1] : List ℚ)).filter (fun s => decide (0 < s)) =
      [1, 1, 1] := by
    norm_num [List.filter_cons]
  rw [hf, show listAvg [(1:ℚ), 1, 1] = 1 by norm_num [listAvg]]
  norm_num [jsRound2, Int.floor_eq_iff]

theorem overall_rFives : (mkSummary ("B") [rFives]).overall_score = 5 := by
  have hb1 : bucketScores teamLeadershipKeys [rFives] = [5, 5, 5, 5, 5] := rfl
  have hb2 : bucketScores resultsOrientationKeys [rFives] = [5, 5, 5, 5] := rfl
  have hb3 : bucketScores culturalFitKeys [rFives] = [5, 5, 5, 5] := rfl
  show jsRound2 (listAvg (([listAvg (bucketScores teamLeadershipKeys [rFives]),
    listAvg (bucketScores resultsOrientationKeys [rFives]),
    listAvg (bucketScores culturalFitKeys [rFives])]).filter
      (fun s => decide (0 < s)))) = 5
  rw [hb1, hb2, hb3]
  have ha1 : listAvg [(5:ℚ), 5, 5, 5, 5] = 5 := by norm_num [listAvg]
  have ha2 : listAvg [(5:ℚ), 5, 5, 5] = 5 := by norm_num [listAvg]
  rw [ha1, ha2]
  have hf : (([5, 5, 5] : List ℚ)).filter (fun s => decide (0 < s)) =
      [5, 5, 5] := by
    norm_num [List.filter_cons]
  rw [hf, show listAvg [(5:ℚ), 5, 5] = 5 by norm_num [listAvg]]
  norm_num [jsRound2, Int.floor_eq_iff]

/-- Counterexample to claim C4 as stated: the pipeline summary of an all-ones
response has overall score 1, which the claimed rule classifies as Critical
but the exporter's per-manager label maps to "Needs Improvement"; and the
pipeline summary of an all-fives response has overall score 5, which falls
into none of the histogram's tier ranges instead of exactly one. -/
theorem c4_tiers_counterexample :
    (managerSummaries [rOnes]).map (fun m => exportTier m.overall_score) =
      [("Needs Improvement")] ∧
    (managerSummaries [rOnes]).map (fun m => claimedTier m.overall_score) =
      [("Critical")] ∧
    (managerSummaries [rFives]).map
      (fun m => tierRanges.countP (fun rg => inTierRange rg m)) = [0] := by
  have hm1 : managerSummaries [rOnes] = [mkSummary ("A") [rOnes]] := rfl
  have hm5 : managerSummaries [rFives] = [mkSummary ("B") [rFives]] := rfl
  refine ⟨?_, ?_, ?_⟩
  · rw [hm1, List.map_cons, List.map_nil, overall_rOnes]
    norm_num [exportTier]
  · rw [hm1, List.map_cons, List.map_nil, overall_rOnes]
    norm_num [claimedTier]
  · rw [hm5, List.map_cons, List.map_nil]
    simp only [tierRanges, List.countP_cons, List.countP_nil, inTierRange,
      overall_rFives]
    norm_num

/-- Witness for the amended C4 at the pipeline summary of the all-ones
response (overall score 1 = 100/100). -/
theorem c4_tiers_amended_witness :
    tierRanges.countP (fun rg => inTierRange rg (mkSummary ("A") [rOnes])) = 1 ∧
    exportTier (mkSummary ("A") [rOnes]).overall_score =
      (if (2 : ℚ) ≤ (mkSummary ("A") [rOnes]).overall_score
       then claimedTier (mkSummary ("A") [rOnes]).overall_score
       else ("Needs Improvement")) := by
  have h := c4_tiers_amended [mkSummary ("A") [rOnes]] (by
    intro m hm
    rw [List.mem_singleton] at hm
    subst hm
    refine ⟨100, by norm_num, ?_⟩
    rw [overall_rOnes]
    norm_num)
  exact ⟨h.1 _ (List.mem_singleton.mpr rfl),
    h.2.2.1 _ (List.mem_singleton.mpr rfl)⟩

/-! ### Claim C3: exporter competency view vs engine competency view -/

/-- Position, in the exporter's catalog, of the i-th engine-catalog key. -/
def reindex (i : Fin 13) : Fin 13 :=
  ([11, 0, 1, 2, 3, 4, 5, 6, 12, 7, 8, 9, 10] : List (Fin 13)).getD i 0

/-- Placeholder exporter entry for positional indexing. -/
def dfltX : ExportCompetency := ⟨"", 0, 0, 0, 0, 0⟩

theorem avg_forms (l : List ℚ) :
    (if l.length = 0 then (0:ℚ) else l.sum / l.length) =
      (if 0 < l.length then l.sum / l.length else 0) := by
  cases l <;> simp

/-- Counterexample to claim C3 as stated: already on the empty response set
the two per-competency views differ (the first display name is
"Empowers Team" in the engine and "Mentors & Coaches" in the exporter), so
they are not bit-for-bit equal. -/
theorem c3_views_counterexample :
    ¬ ((competencyScores []).map (fun e => (e.name, e.score, e.percentage)) =
      (calculateCompetencyScores []).map (fun e => (e.name, e.avg,
        e.percentage))) := by
  intro h
  have h2 := congrArg (fun l => l.map (fun p : String × ℚ × ℚ => p.1)) h
  simp only [List.map_map] at h2
  simp [competencyScores, calculateCompetencyScores, engineCatalog,
    exportCatalog, Function.comp] at h2

/-- Amended claim C3: the two views agree on the underlying per-key non-null
mean — the engine's score is the 2-decimal rounding of the exporter's
unrounded average for the same key, and the engine's percentage is the
1-decimal rounding of that average relative to a maximum of 5 — but they are
not bit-for-bit equal: the catalogs order the keys differently (the `reindex`
permutation), the exporter's percentage is unrounded and relative to a
maximum of 4, and the final-say display names differ ("Final Say" vs
"Final Say Balance"). -/
theorem c3_views_amended (rs : List AppraisalResponse) :
    ∀ i : Fin 13,
      ((competencyScores rs).getD i defaultCS).score =
        jsRound2 (((calculateCompetencyScores rs).getD (reindex i) dfltX).avg) ∧
      ((competencyScores rs).getD i defaultCS).percentage =
        jsRound1 (((calculateCompetencyScores rs).getD (reindex i) dfltX).avg
          / 5 * 100) ∧
      ((calculateCompetencyScores rs).getD (reindex i) dfltX).percentage =
        ((calculateCompetencyScores rs).getD (reindex i) dfltX).avg / 4 * 100 ∧
      (i ≠ 8 → ((competencyScores rs).getD i defaultCS).name =
        ((calculateCompetencyScores rs).getD (reindex i) dfltX).name) ∧
      (i = 8 → ((competencyScores rs).getD i defaultCS).name = ("Final Say") ∧
        ((calculateCompetencyScores rs).getD (reindex i) dfltX).name =
          ("Final Say Balance")) := by
  intro i
  fin_cases i <;>
    first
      | exact ⟨congrArg jsRound2 (avg_forms _),
          congrArg (fun q => jsRound1 (q / 5 * 100)) (avg_forms _), rfl,
          fun _ => rfl, fun h => absurd h (by decide)⟩
      | exact ⟨congrArg jsRound2 (avg_forms _),
          congrArg (fun q => jsRound1 (q / 5 * 100)) (avg_forms _), rfl,
          fun h => absurd rfl h, fun _ => ⟨rfl, rfl⟩⟩

/-- Witness for the amended C3 at the empty response set. -/
theorem c3_views_amended_witness :
    ((competencyScores []).getD 0 defaultCS).score =
      jsRound2 (((calculateCompetencyScores []).getD (reindex 0) dfltX).avg) ∧
    ((competencyScores []).getD 8 defaultCS).name = ("Final Say") ∧
    ((calculateCompetencyScores []).getD (reindex 8) dfltX).name =
      ("Final Say Balance") :=
  ⟨(c3_views_amended [] 0).1, ((c3_views_amended [] 8).2.2.2.2 rfl).1,
    ((c3_views_amended [] 8).2.2.2.2 rfl).2⟩

/-! ### Claim C5: global feedback dedup -/

theorem partition_perm (l : List (FTag × List Char)) :
    ((l.filter (fun e => e.1 = FTag.stop)) ++
      (l.filter (fun e => e.1 = FTag.start)) ++
      (l.filter (fun e => e.1 = FTag.cont))).Perm l := by
  induction l with
  | nil => rfl
  | cons x l ih =>
    cases hx : x.1
    · have c1 : (decide (x.1 = FTag.stop)) = true := by simp [hx]
      have c2 : (decide (x.1 = FTag.start)) = false := by simp [hx]
      have c3 : (decide (x.1 = FTag.cont)) = false := by simp [hx]
      simp only [List.filter_cons, c1, c2, c3, if_true, if_false,
        Bool.false_eq_true, List.cons_append]
      exact ih.cons x
    · have c1 : (decide (x.1 = FTag.stop)) = false := by simp [hx]
      have c2 : (decide (x.1 = FTag.start)) = true := by simp [hx]
      have c3 : (decide (x.1 = FTag.cont)) = false := by simp [hx]
      simp only [List.filter_cons, c1, c2, c3, if_true, if_false,
        Bool.false_eq_true]
      rw [List.append_assoc, List.cons_append]
      refine List.perm_middle.trans ?_
      refine List.Perm.cons x ?_
      rw [← List.append_assoc]
      exact ih
    · have c1 : (decide (x.1 = FTag.stop)) = false := by simp [hx]
      have c2 : (decide (x.1 = FTag.start)) = false := by simp [hx]
      have c3 : (decide (x.1 = FTag.cont)) = true := by simp [hx]
      simp only [List.filter_cons, c1, c2, c3, if_true, if_false,
        Bool.false_eq_true]
      exact List.perm_middle.trans (ih.cons x)

theorem combined_eq_proj (rs : List AppraisalResponse) :
    (feedbackThemes rs).stopDoing ++ (feedbackThemes rs).startDoing ++
      (feedbackThemes rs).continueDoing =
    ((keptFrom [] (events rs)).filter (fun e => e.1 = FTag.stop) ++
      (keptFrom [] (events rs)).filter (fun e => e.1 = FTag.start) ++
      (keptFrom [] (events rs)).filter (fun e => e.1 = FTag.cont)).map
        (fun e => e.2) := by
  rw [feedbackThemes_eq]
  simp [proj, List.map_append]

theorem tagList_feedbackThemes (rs : List AppraisalResponse) (tg : FTag) :
    tagList tg (feedbackThemes rs) = proj tg (keptFrom [] (events rs)) := by
  rw [feedbackThemes_eq]
  cases tg <;> rfl

/-- Claim C5: the theme extraction performs one global dedup pass over the
truthy stop/start/continue fields in processing order (stop, then start,
then continue, per response in order), against one shared seen set, comparing
case-insensitively on trimmed text; across the three output lists every
normalised value appears at most once, every kept entry is the trimmed
original text of some field, every truthy field's normalised value is
represented, and the kept copy lives in the list of the field whose
occurrence comes first in processing order. -/
theorem c5_feedback_dedup (rs : List AppraisalResponse) :
    (((feedbackThemes rs).stopDoing ++ (feedbackThemes rs).startDoing ++
      (feedbackThemes rs).continueDoing).map normOf).Nodup ∧
    (∀ e ∈ (feedbackThemes rs).stopDoing ++ (feedbackThemes rs).startDoing ++
      (feedbackThemes rs).continueDoing,
      ∃ tg s, (tg, s) ∈ events rs ∧ e = jsTrim s) ∧
    (∀ tg s, (tg, s) ∈ events rs →
      normOf s ∈ ((feedbackThemes rs).stopDoing ++
        (feedbackThemes rs).startDoing ++
        (feedbackThemes rs).continueDoing).map normOf) ∧
    (∀ pre tg s post, events rs = pre ++ (tg, s) :: post →
      (∀ e ∈ pre, normOf e.2 ≠ normOf s) →
      jsTrim s ∈ tagList tg (feedbackThemes rs)) := by
  have hperm := (partition_perm (keptFrom [] (events rs))).map
    (fun e : FTag × List Char => e.2)
  have hcomb := combined_eq_proj rs
  refine ⟨?_, ?_, ?_, ?_⟩
  · rw [hcomb]
    refine ((hperm.map normOf).nodup_iff).mpr ?_
    rw [List.map_map]
    exact keptFrom_norm_nodup [] (events rs)
  · intro e he
    rw [hcomb] at he
    obtain ⟨p, hp, hpe⟩ := List.mem_map.mp he
    have hpk : p ∈ keptFrom [] (events rs) :=
      (partition_perm (keptFrom [] (events rs))).mem_iff.mp hp
    obtain ⟨s, hs, hes⟩ := keptFrom_sources [] (events rs) p hpk
    exact ⟨p.1, s, hs, by rw [← hpe, hes]⟩
  · intro tg s hs
    rw [hcomb]
    have hmem : normOf s ∈ (keptFrom [] (events rs)).map
        (fun e => normOf e.2) := by
      rw [mem_norm_keptFrom]
      exact ⟨by simp, (tg, s), hs, rfl⟩
    have hmem2 : normOf s ∈ ((keptFrom [] (events rs)).map
        (fun e : FTag × List Char => e.2)).map normOf := by
      rw [List.map_map]
      exact hmem
    exact (hperm.map normOf).mem_iff.mpr hmem2
  · intro pre tg s post hev hpre
    have hk := keptFrom_of_first [] pre tg s post hpre (by simp)
    rw [← hev] at hk
    rw [tagList_feedbackThemes]
    unfold proj
    exact List.mem_map.mpr ⟨(tg, jsTrim s),
      List.mem_filter.mpr ⟨hk, by simp⟩, rfl⟩

/-! ### Claims C9 and C10: idempotence and whitespace-only entries -/

theorem ltrim_eq_nil_iff (s : List Char) :
    ltrim s = [] ↔ ∀ c ∈ s, wsChar c := by
  unfold ltrim
  exact List.dropWhile_eq_nil_iff

theorem jsTrim_eq_nil_iff (s : List Char) :
    jsTrim s = [] ↔ ∀ c ∈ s, wsChar c := by
  constructor
  · intro h
    rw [← ltrim_eq_nil_iff]
    by_contra hne
    cases hm : ltrim s with
    | nil => exact hne hm
    | cons c t =>
      have hc : ¬ wsChar c := by
        have h2 := List.head?_dropWhile_not wsChar s
        rw [show s.dropWhile wsChar = ltrim s from rfl, hm] at h2
        simpa using h2
      rw [jsTrim, hm, rtrim_cons_of_head c t hc] at h
      exact List.cons_ne_nil _ _ h
  · intro h
    rw [jsTrim, (ltrim_eq_nil_iff s).mpr h]
    rfl

theorem lowerChar_fix_of_ws {c : Char} (h : wsChar c = true) :
    lowerChar c = c := by
  unfold lowerChar
  rw [if_neg]
  intro hc
  have hA : 65 ≤ c.toNat := Char.le_def.mp hc.1
  rw [wsChar_iff] at h
  omega

theorem normOf_eq_nil_iff (s : List Char) :
    normOf s = [] ↔ ∀ c ∈ s, wsChar c := by
  unfold normOf
  rw [jsTrim_eq_nil_iff]
  constructor
  · intro h c hc
    have := h (lowerChar c) (List.mem_map_of_mem lowerChar hc)
    rwa [lowerChar_ws] at this
  · intro h c hc
    obtain ⟨d, hd, hdc⟩ := List.mem_map.mp hc
    rw [← hdc, lowerChar_ws]
    exact h d hd

theorem countP_nil_le (l : List (List Char)) :
    l.countP (fun e => decide (e = [])) ≤
      (l.map normOf).countP (fun e => decide (e = [])) := by
  induction l with
  | nil => simp
  | cons e l ih =>
    rw [List.countP_cons, List.map_cons, List.countP_cons]
    by_cases he : e = ([] : List Char)
    · subst he
      simp only [show normOf [] = [] from rfl]
      omega
    · have h1 : (decide (e = ([] : List Char))) = false := by
        simpa using he
      rw [h1]
      simp only [Bool.false_eq_true, if_false]
      by_cases hn : normOf e = ([] : List Char)
      · rw [hn]
        simp only [decide_eq_true_eq]
        omega
      · have h2 : (decide (normOf e = ([] : List Char))) = false := by
          simpa using hn
        rw [h2]
        simp only [Bool.false_eq_true, if_false]
        omega

theorem countP_eq_le_one {α : Type} [DecidableEq α] (l : List α) (x : α)
    (h : l.Nodup) : l.countP (fun e => decide (e = x)) ≤ 1 := by
  induction l with
  | nil => simp
  | cons a l ih =>
    rw [List.countP_cons]
    rw [List.nodup_cons] at h
    by_cases ha : a = x
    · subst ha
      have hz : l.countP (fun e => decide (e = a)) = 0 :=
        List.countP_eq_zero.mpr (fun e he => by
          simp only [decide_eq_true_eq]
          exact fun hc => h.1 (hc ▸ he))
      simp [hz]
    · have h1 : (decide (a = x)) = false := by simpa using ha
      rw [h1]
      simp only [Bool.false_eq_true, if_false]
      have := ih h.2
      omega

/-- Norm-nodup of the combined output lists, shared by several claims. -/
theorem themes_norm_nodup (rs : List AppraisalResponse) :
    (((feedbackThemes rs).stopDoing ++ (feedbackThemes rs).startDoing ++
      (feedbackThemes rs).continueDoing).map normOf).Nodup := by
  have hperm := (partition_perm (keptFrom [] (events rs))).map
    (fun e : FTag × List Char => e.2)
  rw [combined_eq_proj rs]
  refine ((hperm.map normOf).nodup_iff).mpr ?_
  rw [List.map_map]
  exact keptFrom_norm_nodup [] (events rs)

/-- Every combined output entry is the trim of some event string. -/
theorem themes_entries (rs : List AppraisalResponse) :
    ∀ e ∈ (feedbackThemes rs).stopDoing ++ (feedbackThemes rs).startDoing ++
      (feedbackThemes rs).continueDoing,
      ∃ tg s, (tg, s) ∈ events rs ∧ e = jsTrim s := by
  intro e he
  rw [combined_eq_proj rs] at he
  obtain ⟨p, hp, hpe⟩ := List.mem_map.mp he
  have hpk : p ∈ keptFrom [] (events rs) :=
    (partition_perm (keptFrom [] (events rs))).mem_iff.mp hp
  obtain ⟨s, hs, hes⟩ := keptFrom_sources [] (events rs) p hpk
  exact ⟨p.1, s, hs, by rw [← hpe, hes]⟩

/-- Claim C10: if a response's stop, start or continue field is a truthy
whitespace-only string, and no earlier-processed truthy field is
whitespace-only, the extraction emits the empty string as an entry of the
corresponding output list; and at most one empty-string entry appears across
the three output lists combined. -/
theorem c10_whitespace_entry (rs : List AppraisalResponse) :
    ((feedbackThemes rs).stopDoing ++ (feedbackThemes rs).startDoing ++
      (feedbackThemes rs).continueDoing).countP
        (fun e => decide (e = [])) ≤ 1 ∧
    (∀ pre tg s post, events rs = pre ++ (tg, s) :: post →
      (∀ c ∈ s, wsChar c) →
      (∀ e ∈ pre, ¬ (∀ c ∈ e.2, wsChar c)) →
      [] ∈ tagList tg (feedbackThemes rs)) := by
  constructor
  · exact le_trans (countP_nil_le _)
      (countP_eq_le_one _ [] (themes_norm_nodup rs))
  · intro pre tg s post hev hws hpre
    have hns : normOf s = [] := (normOf_eq_nil_iff s).mpr hws
    have hk := keptFrom_of_first [] pre tg s post
      (fun e he hc => hpre e he ((normOf_eq_nil_iff e.2).mp (hns ▸ hc)))
      (by simp)
    rw [← hev] at hk
    have htr : jsTrim s = [] := (jsTrim_eq_nil_iff s).mpr hws
    rw [htr] at hk
    rw [tagList_feedbackThemes]
    unfold proj
    exact List.mem_map.mpr ⟨(tg, []),
      List.mem_filter.mpr ⟨hk, by simp⟩, rfl⟩

/-- Concrete input with a whitespace-only truthy feedback field. -/
def wsRs : List AppraisalResponse :=
  [{ manager_name := "A", stop_doing := some [' '] }]

/-- Witness for C10 at a response whose stop field is a single space. -/
theorem c10_whitespace_entry_witness :
    ((feedbackThemes wsRs).stopDoing ++ (feedbackThemes wsRs).startDoing ++
      (feedbackThemes wsRs).continueDoing).countP
        (fun e => decide (e = [])) ≤ 1 ∧
    [] ∈ tagList FTag.stop (feedbackThemes wsRs) :=
  ⟨(c10_whitespace_entry wsRs).1,
   (c10_whitespace_entry wsRs).2 [] FTag.stop [' '] [] (by decide)
     (by decide) (by decide)⟩

/-! ### Claim C9: idempotence of the dedup extraction -/

theorem events_rebuild_stop (l : List (List Char)) (h : ∀ s ∈ l, s ≠ []) :
    (l.map (fun s => ({ manager_name := "", stop_doing := some s } :
      AppraisalResponse))).flatMap respEvents =
      l.map (fun s => (FTag.stop, s)) := by
  induction l with
  | nil => rfl
  | cons a l ih =>
    rw [List.map_cons, List.flatMap_cons,
      ih (fun s hs => h s (List.mem_cons_of_mem _ hs))]
    have ha : a ≠ [] := h a (List.mem_cons_self _ _)
    simp [respEvents, fieldEvents, ha]

theorem events_rebuild_start (l : List (List Char)) (h : ∀ s ∈ l, s ≠ []) :
    (l.map (fun s => ({ manager_name := "", start_doing := some s } :
      AppraisalResponse))).flatMap respEvents =
      l.map (fun s => (FTag.start, s)) := by
  induction l with
  | nil => rfl
  | cons a l ih =>
    rw [List.map_cons, List.flatMap_cons,
      ih (fun s hs => h s (List.mem_cons_of_mem _ hs))]
    have ha : a ≠ [] := h a (List.mem_cons_self _ _)
    simp [respEvents, fieldEvents, ha]

theorem events_rebuild_cont (l : List (List Char)) (h : ∀ s ∈ l, s ≠ []) :
    (l.map (fun s => ({ manager_name := "", continue_doing := some s } :
      AppraisalResponse))).flatMap respEvents =
      l.map (fun s => (FTag.cont, s)) := by
  induction l with
  | nil => rfl
  | cons a l ih =>
    rw [List.map_cons, List.flatMap_cons,
      ih (fun s hs => h s (List.mem_cons_of_mem _ hs))]
    have ha : a ≠ [] := h a (List.mem_cons_self _ _)
    simp [respEvents, fieldEvents, ha]

theorem events_rebuild (t : FeedbackThemes)
    (h1 : ∀ s ∈ t.stopDoing, s ≠ ([] : List Char))
    (h2 : ∀ s ∈ t.startDoing, s ≠ ([] : List Char))
    (h3 : ∀ s ∈ t.continueDoing, s ≠ ([] : List Char)) :
    events (rebuildResponses t) =
      t.stopDoing.map (fun s => (FTag.stop, s)) ++
      t.startDoing.map (fun s => (FTag.start, s)) ++
      t.continueDoing.map (fun s => (FTag.cont, s)) := by
  unfold events rebuildResponses
  rw [List.flatMap_append, List.flatMap_append, events_rebuild_stop _ h1,
    events_rebuild_start _ h2, events_rebuild_cont _ h3]

theorem proj_tagged_same (tg : FTag) (l : List (List Char)) :
    proj tg (l.map (fun s => (tg, s))) = l := by
  unfold proj
  rw [List.filter_map, List.map_map]
  have h1 : ((fun e : FTag × List Char => decide (e.1 = tg)) ∘
      (fun s => (tg, s))) = fun _ => true := by
    funext s
    simp
  rw [h1, List.filter_true]
  have h2 : ((fun e : FTag × List Char => e.2) ∘ (fun s => (tg, s))) = id := by
    funext s
    rfl
  rw [h2, List.map_id]

theorem proj_tagged_other {tg tg' : FTag} (hne : tg' ≠ tg)
    (l : List (List Char)) :
    proj tg (l.map (fun s => (tg', s))) = [] := by
  unfold proj
  rw [List.filter_map]
  have h1 : ((fun e : FTag × List Char => decide (e.1 = tg)) ∘
      (fun s => (tg', s))) = fun _ => false := by
    funext s
    simpa using hne
  rw [h1, List.filter_false]
  rfl

/-- Counterexample to claim C9 as stated: on a response whose stop field is a
single space, the extraction emits the empty string, which is falsy on the
second pass, so re-extracting from responses built from the output loses the
entry. -/
theorem c9_idem_counterexample :
    ¬ (feedbackThemes (rebuildResponses (feedbackThemes wsRs)) =
      feedbackThemes wsRs) := by
  decide

/-- Amended claim C9: the dedup extraction is idempotent on every response
set none of whose truthy feedback fields is whitespace-only (equivalently,
every event trims to a non-empty string): re-running the extraction on
responses built from its own output returns the same three lists. -/
theorem c9_idem_amended (rs : List AppraisalResponse)
    (h : ∀ e ∈ events rs, jsTrim e.2 ≠ ([] : List Char)) :
    feedbackThemes (rebuildResponses (feedbackThemes rs)) =
      feedbackThemes rs := by
  have hsrc := themes_entries rs
  have hnodup := themes_norm_nodup rs
  have hstop_mem : ∀ s ∈ (feedbackThemes rs).stopDoing,
      s ∈ (feedbackThemes rs).stopDoing ++ (feedbackThemes rs).startDoing ++
        (feedbackThemes rs).continueDoing :=
    fun s hs => List.mem_append_left _ (List.mem_append_left _ hs)
  have hstart_mem : ∀ s ∈ (feedbackThemes rs).startDoing,
      s ∈ (feedbackThemes rs).stopDoing ++ (feedbackThemes rs).startDoing ++
        (feedbackThemes rs).continueDoing :=
    fun s hs => List.mem_append_left _ (List.mem_append_right _ hs)
  have hcont_mem : ∀ s ∈ (feedbackThemes rs).continueDoing,
      s ∈ (feedbackThemes rs).stopDoing ++ (feedbackThemes rs).startDoing ++
        (feedbackThemes rs).continueDoing :=
    fun s hs => List.mem_append_right _ hs
  have hne : ∀ s ∈ (feedbackThemes rs).stopDoing ++
      (feedbackThemes rs).startDoing ++ (feedbackThemes rs).continueDoing,
      s ≠ ([] : List Char) := by
    intro s hs
    obtain ⟨tg, u, hu, hsu⟩ := hsrc s hs
    rw [hsu]
    exact h (tg, u) hu
  have htrim : ∀ s ∈ (feedbackThemes rs).stopDoing ++
      (feedbackThemes rs).startDoing ++ (feedbackThemes rs).continueDoing,
      jsTrim s = s := by
    intro s hs
    obtain ⟨tg, u, _, hsu⟩ := hsrc s hs
    rw [hsu, jsTrim_idem]
  have hev := events_rebuild (feedbackThemes rs)
    (fun s hs => hne s (hstop_mem s hs))
    (fun s hs => hne s (hstart_mem s hs))
    (fun s hs => hne s (hcont_mem s hs))
  have hmapnorm : (events (rebuildResponses (feedbackThemes rs))).map
      (fun e => normOf e.2) =
      ((feedbackThemes rs).stopDoing ++ (feedbackThemes rs).startDoing ++
        (feedbackThemes rs).continueDoing).map normOf := by
    rw [hev]
    simp only [List.map_append, List.map_map]
    rfl
  have hself : keptFrom [] (events (rebuildResponses (feedbackThemes rs))) =
      events (rebuildResponses (feedbackThemes rs)) := by
    refine keptFrom_eq_self _ _ (fun e _ => by simp) ?_ ?_
    · rw [hmapnorm]
      exact hnodup
    · intro e he
      rw [hev] at he
      rcases List.mem_append.mp he with h1 | h1
      · rcases List.mem_append.mp h1 with h2 | h2
        · obtain ⟨s, hs, hse⟩ := List.mem_map.mp h2
          rw [← hse]
          exact htrim s (hstop_mem s hs)
        · obtain ⟨s, hs, hse⟩ := List.mem_map.mp h2
          rw [← hse]
          exact htrim s (hstart_mem s hs)
      · obtain ⟨s, hs, hse⟩ := List.mem_map.mp h1
        rw [← hse]
        exact htrim s (hcont_mem s hs)
  rw [feedbackThemes_eq (rebuildResponses (feedbackThemes rs)), hself, hev]
  rw [proj_append, proj_append, proj_append, proj_append, proj_append,
    proj_append]
  rw [proj_tagged_same, proj_tagged_same, proj_tagged_same,
    proj_tagged_other (by decide), proj_tagged_other (by decide),
    proj_tagged_other (by decide), proj_tagged_other (by decide),
    proj_tagged_other (by decide), proj_tagged_other (by decide)]
  simp

/-- Concrete input whose second response repeats the first response's theme
in a different field with different casing and spacing. -/
def dupRs : List AppraisalResponse :=
  [{ manager_name := "A", stop_doing := some (("Stop Micromanaging").toList) },
   { manager_name := "B",
     start_doing := some ((" stop micromanaging ").toList) }]

/-- Witness for the amended C9: the extraction is idempotent on `dupRs`,
whose truthy fields all trim to non-empty strings. -/
theorem c9_idem_amended_witness :
    feedbackThemes (rebuildResponses (feedbackThemes dupRs)) =
      feedbackThemes dupRs :=
  c9_idem_amended dupRs (by decide)

/-- Witness for C5 on `dupRs`: the cross-field duplicate is kept once, in the
stop list (the field processed first), and the duplicate's normalised value
is still represented in the combined output. -/
theorem c5_feedback_dedup_witness :
    jsTrim (("Stop Micromanaging").toList) ∈
      tagList FTag.stop (feedbackThemes dupRs) ∧
    normOf ((" stop micromanaging ").toList) ∈
      (((feedbackThemes dupRs).stopDoing ++ (feedbackThemes dupRs).startDoing ++
        (feedbackThemes dupRs).continueDoing).map normOf) :=
  ⟨(c5_feedback_dedup dupRs).2.2.2 [] FTag.stop
      (("Stop Micromanaging").toList)
      [(FTag.start, ((" stop micromanaging ").toList))] (by decide)
      (by decide),
   (c5_feedback_dedup dupRs).2.2.1 FTag.start
      ((" stop micromanaging ").toList) (by decide)⟩
